import Mathlib

/-!
# Filter-CSV-by-age: a shallow embedding of `src/main.c`

The program reads lines `name,age` and writes `name, age` for the rows whose
age is at most `filter_age_max`.

Conventions of the embedding.

* A byte (`char`) is a `Char`; a stream, a buffer content or a C string is a
  `List Char`.  `NUL` is the byte `0`.
* `unsigned` is 32 bits wide and `unsigned long` 64 bits wide (LP64).
* The counters `kept`, `skipped`, `line_number` are `size_t` in the source and
  `Nat` here: each is bounded by the number of bytes of the input.
* The library calls `fgets`, `strncpy`, `strlen`, `strchr`, `sscanf("%u")` and
  `fprintf` are modelled after the C standard; where the standard leaves the
  stored value of an out-of-range `%u` conversion open, the model follows
  glibc and musl (conversion as `unsigned long` with saturation, then
  truncation to `unsigned`).
* The input stream has no read error (`ferror` is false).
* The loop of line 89 can read, and overwrite with `NUL`, bytes in front of
  `parsebuffer` (see `trimLoop`).  Those bytes hold no variable of
  `filter_stream`, and the loop ends at the first of them that is neither a
  space nor a tab; the iteration then goes on at line 93 with `name` and
  `age_str` as they stand (`afterStray`).  The state records in `fault` that
  such an access has taken place.
-/

namespace FilterCsv

/-! ## Constants and characters -/

/-- The terminating byte of a C string. -/
def NUL : Char := Char.ofNat 0

/-- The macro `LINE_MAX` of the source: the size of `line` and `parsebuffer`. -/
def LINE_MAX : Nat := 100

/-- Largest value of `unsigned` (32 bits). -/
def UINT_MAX : Nat := 4294967295

/-- Largest value of `unsigned long` (64 bits). -/
def ULONG_MAX : Nat := 18446744073709551615

/-- The exit status `EXIT_SUCCESS`. -/
def EXIT_SUCCESS : Nat := 0

/-- The exit status `EXIT_FAILURE`. -/
def EXIT_FAILURE : Nat := 1

/-- The test `c == ' ' || c == '\t'` used for the leading skip and the name trim. -/
def isBlank (c : Char) : Bool := c == ' ' || c == '\t'

/-- The test `c == ' ' || c == '\r'` used to skip in front of the age. -/
def isAgeSkip (c : Char) : Bool := c == ' ' || c == '\r'

/-- The function `isspace` of the C locale: space, `\t`, `\n`, `\v`, `\f`, `\r`. -/
def isspace (c : Char) : Bool :=
  c == ' ' || c == '\t' || c == '\n' || c == Char.ofNat 11 || c == Char.ofNat 12 || c == '\r'

/-- The function `isdigit`: `'0'` to `'9'`. -/
def isdigit (c : Char) : Bool := c.isDigit

/-- Value of a decimal digit character. -/
def digitVal (c : Char) : Nat := c.toNat - 48

/-- The content of a buffer read as a C string: the bytes before the first `NUL`. -/
def cstr (b : List Char) : List Char := b.takeWhile (fun c => c != NUL)

/-! ## Library calls -/

/-- Value of a run of decimal digits, most significant first. -/
def digitsVal (ds : List Char) : Nat := ds.foldl (fun a c => a * 10 + digitVal c) 0

/-- The sign accepted in front of the digits by `%u`: `(negative, rest)`. -/
def scanSign (s : List Char) : Bool × List Char :=
  match s with
  | '-' :: t => (true, t)
  | '+' :: t => (false, t)
  | _ => (false, s)

/-- The call `sscanf(s, "%u", &v)`: `some v` when it returns 1 (with the value
stored), `none` when it returns 0 or `EOF`.  The directive skips white space,
takes an optional sign and then the longest run of decimal digits, which must
not be empty.  The run is converted as by `strtoul` (saturating at `ULONG_MAX`,
negated modulo `2^64` after a `-`) and stored in an `unsigned`. -/
def sscanf_u (s : List Char) : Option Nat :=
  let s1 := s.dropWhile isspace
  let sg := scanSign s1
  let ds := sg.2.takeWhile isdigit
  if ds = [] then none
  else
    let v := digitsVal ds
    let ul := if ULONG_MAX < v then ULONG_MAX
              else if sg.1 then (ULONG_MAX + 1 - v) % (ULONG_MAX + 1) else v
    some (ul % (UINT_MAX + 1))

/-- Digits of `n`, least significant produced first and pushed on `acc`. -/
def utoaAux : Nat → Nat → List Char → List Char
  | 0, _, acc => acc
  | fuel + 1, n, acc =>
    let acc1 := Char.ofNat (48 + n % 10) :: acc
    if n / 10 = 0 then acc1 else utoaAux fuel (n / 10) acc1

/-- The text printed by `%u` and `%zu`: decimal, no sign, no leading zero. -/
def utoa (n : Nat) : List Char := utoaAux (n + 1) n []

/-- Reads at most `k` bytes, stopping after a newline: `(bytes read, rest)`. -/
def fgetsAux : Nat → List Char → List Char × List Char
  | 0, s => ([], s)
  | _ + 1, [] => ([], [])
  | k + 1, c :: s =>
    if c = '\n' then ([c], s)
    else (c :: (fgetsAux k s).1, (fgetsAux k s).2)

/-- The call `fgets(line, size, in)` on a stream whose unread content is `s`:
`none` at end of file, else the bytes stored in `line` (at most `size - 1`, a
newline being the last one stored) and the unread rest. -/
def fgets (size : Nat) (s : List Char) : Option (List Char × List Char) :=
  match s with
  | [] => none
  | _ :: _ => some (fgetsAux (size - 1) s)

/-! ## The loop body of `filter_stream` -/

/-- Lines 43 to 46: a final `\n` or `\r` is removed, then a final `\r`. -/
def stripEol (b : List Char) : List Char :=
  let b1 := if b.getLast? = some '\n' ∨ b.getLast? = some '\r' then b.dropLast else b
  if b1.getLast? = some '\r' then b1.dropLast else b1

/-- The loop `while (m && name[m - 1] == ' ' || name[m - 1] == '\t') name[--m] = '\0';`
of lines 89 to 91.  `buf` is `parsebuffer`, `s` is the offset of `name` in it and
the counter is `k = s + m`, so that `name[m - 1]` is `parsebuffer[k - 1]` and,
`m` being a `size_t`, `m` is zero exactly when `k = s`; the index `m - 1` wraps,
so with `m = 0` the byte read is the one in front of `name`.  The condition parses as
`(m && name[m - 1] == ' ') || name[m - 1] == '\t'`.  With `k = 0` the byte read
is `parsebuffer[-1]`: the result is `none`.  Otherwise the result is the final
`k` and the buffer. -/
def trimLoop (s : Nat) : Nat → List Char → Option (Nat × List Char)
  | 0, _ => none
  | k + 1, buf =>
    let c := buf.getD k NUL
    if (k + 1 ≠ s ∧ c = ' ') ∨ c = '\t' then trimLoop s k (buf.set k NUL)
    else some (k + 1, buf)

/-- What one iteration of the loop does with the line it has read. -/
inductive Outcome where
  | emptyLine
  | comment
  | noComma
  | ageMissing
  | badAge
  | kept (name : List Char) (age : Nat)
  | tooOld
  | outOfBounds
  deriving DecidableEq

/-- Lines 29 to 122 for the bytes `line` stored by `fgets`; `filter_age_max` is
the global of that name.  `parsebuffer` holds the C string of `line` followed by
`NUL` bytes, so a read past the content yields `NUL`. -/
def processLine (filter_age_max : Nat) (line : List Char) : Outcome :=
  let parsebuffer := stripEol (cstr line)
  let s := (parsebuffer.takeWhile isBlank).length
  let p := parsebuffer.drop s
  if p.headD NUL = NUL then Outcome.emptyLine
  else if p.headD NUL = '#' then Outcome.comment
  else if p.headD NUL = '/' ∧ (p.drop 1).headD NUL = '/' then Outcome.comment
  else
    let comma := parsebuffer.indexOf ','
    if comma = parsebuffer.length then Outcome.noComma
    else
      let buf := parsebuffer.set comma NUL
      let m := (cstr (buf.drop s)).length
      match trimLoop s (s + m) buf with
      | none => Outcome.outOfBounds
      | some (_, buf1) =>
        let age_str := (cstr (buf1.drop (comma + 1))).dropWhile isAgeSkip
        if age_str.headD NUL = NUL then Outcome.ageMissing
        else
          match sscanf_u age_str with
          | none => Outcome.badAge
          | some age =>
            if age ≤ filter_age_max then Outcome.kept (cstr (buf1.drop s)) age
            else Outcome.tooOld

/-- Lines 93 to 122 for a line on which the loop of line 89 has gone in front of
`parsebuffer` (`processLine` gives `outOfBounds`).  The loop has written `NUL`
only over bytes in front of `name`, so `name` and `age_str` designate the same
C strings as before the loop: `name` starts at the offset `s` of the first
byte that is no space or tab, `age_str` behind the comma replaced at line 81. -/
def afterStray (filter_age_max : Nat) (line : List Char) : Outcome :=
  let parsebuffer := stripEol (cstr line)
  let s := (parsebuffer.takeWhile isBlank).length
  let comma := parsebuffer.indexOf ','
  let buf := parsebuffer.set comma NUL
  let age_str := (cstr (buf.drop (comma + 1))).dropWhile isAgeSkip
  if age_str.headD NUL = NUL then Outcome.ageMissing
  else
    match sscanf_u age_str with
    | none => Outcome.badAge
    | some age =>
      if age ≤ filter_age_max then Outcome.kept (cstr (buf.drop s)) age
      else Outcome.tooOld

/-- A message written to `stderr` by `filter_stream`. -/
inductive Diag where
  | emptyLine (line_number : Nat)
  | comment (line_number : Nat)
  | noComma (line_number : Nat) (line : List Char)
  | ageMissing (line_number : Nat) (line : List Char)
  | badAge (line_number : Nat) (line : List Char)
  | done (kept skipped : Nat)
  deriving DecidableEq

/-- The text of a message, as formatted by `fprintf`. -/
def Diag.render : Diag → List Char
  | Diag.emptyLine n => "Line ".toList ++ utoa n ++ ": Empty line -> skipped.\n".toList
  | Diag.comment n => "Line ".toList ++ utoa n ++ ": Comment detected -> skipped.\n".toList
  | Diag.noComma n l =>
    "Line ".toList ++ utoa n ++ ": No comma -> skipped: ".toList ++ l ++ "\n".toList
  | Diag.ageMissing n l =>
    "Line ".toList ++ utoa n ++ ": Age missing -> skipped: ".toList ++ l ++ "\n".toList
  | Diag.badAge n l =>
    "Line ".toList ++ utoa n ++ ": Bad age -> skipped: ".toList ++ l ++ "\n".toList
  | Diag.done k s =>
    "Done. Kept ".toList ++ utoa k ++ " line(s), skipped ".toList ++ utoa s ++ ".\n".toList

/-- The text `fprintf(out, "%s, %u\n", name, age)` writes. -/
def formatRow (name : List Char) (age : Nat) : List Char :=
  name ++ [',', ' '] ++ utoa age ++ ['\n']

/-- The variables of `filter_stream` and the two streams it writes. -/
structure RunState where
  /-- Bytes written to `out`. -/
  out : List Char
  /-- Messages written to `stderr`, oldest first. -/
  log : List Diag
  kept : Nat
  skipped : Nat
  line_number : Nat
  /-- Set when the loop of line 89 has accessed a byte in front of `parsebuffer`. -/
  fault : Bool
  deriving DecidableEq

/-- The state at line 24. -/
def RunState.init : RunState :=
  { out := [], log := [], kept := 0, skipped := 0, line_number := 0, fault := false }

/-- One iteration of the `while` loop, for the bytes `line` stored by `fgets`.
When the loop of line 89 has gone in front of `parsebuffer` the iteration goes
on with lines 93 to 122 (`afterStray`) and the state is marked `fault`. -/
def step (filter_age_max : Nat) (st : RunState) (line : List Char) : RunState :=
  let n := st.line_number + 1
  match processLine filter_age_max line with
  | Outcome.emptyLine =>
    { st with line_number := n, log := st.log ++ [Diag.emptyLine n], skipped := st.skipped + 1 }
  | Outcome.comment =>
    { st with line_number := n, log := st.log ++ [Diag.comment n], skipped := st.skipped + 1 }
  | Outcome.noComma =>
    { st with line_number := n, log := st.log ++ [Diag.noComma n (cstr line)],
              skipped := st.skipped + 1 }
  | Outcome.ageMissing =>
    { st with line_number := n, log := st.log ++ [Diag.ageMissing n (cstr line)],
              skipped := st.skipped + 1 }
  | Outcome.badAge =>
    { st with line_number := n, log := st.log ++ [Diag.badAge n (cstr line)],
              skipped := st.skipped + 1 }
  | Outcome.kept name age =>
    { st with line_number := n, out := st.out ++ formatRow name age, kept := st.kept + 1 }
  | Outcome.tooOld =>
    { st with line_number := n, skipped := st.skipped + 1 }
  | Outcome.outOfBounds =>
    match afterStray filter_age_max line with
    | Outcome.ageMissing =>
      { st with line_number := n, log := st.log ++ [Diag.ageMissing n (cstr line)],
                skipped := st.skipped + 1, fault := true }
    | Outcome.badAge =>
      { st with line_number := n, log := st.log ++ [Diag.badAge n (cstr line)],
                skipped := st.skipped + 1, fault := true }
    | Outcome.kept name age =>
      { st with line_number := n, out := st.out ++ formatRow name age, kept := st.kept + 1,
                fault := true }
    | _ =>
      { st with line_number := n, skipped := st.skipped + 1, fault := true }

/-- The loop `while (fgets(line, sizeof(line), in))`.  Every iteration consumes
at least one byte, so a fuel of the length of the input is never exhausted
(`filterLoop_fuel`). -/
def filterLoop (filter_age_max : Nat) : Nat → List Char → RunState → RunState
  | 0, _, st => st
  | fuel + 1, inp, st =>
    match fgets LINE_MAX inp with
    | none => st
    | some (line, rest) => filterLoop filter_age_max fuel rest (step filter_age_max st line)

/-- The function `filter_stream(in, out)` on an input stream of content `inp`:
the loop, then the summary of line 132. -/
def filter_stream (filter_age_max : Nat) (inp : List Char) : RunState :=
  let st := filterLoop filter_age_max inp.length inp RunState.init
  { st with log := st.log ++ [Diag.done st.kept st.skipped] }

/-! ## The loop body by fields -/

/-- The outcome of a line `lead ++ nm ++ ',' :: A`, where `lead` is the leading
run of spaces and tabs, `nm` the rest in front of the first comma and `A` what
follows that comma. -/
def fieldsOutcome (filter_age_max : Nat) (lead nm A : List Char) : Outcome :=
  if nm.head? = some '#' then Outcome.comment
  else if nm.take 2 = ['/', '/'] then Outcome.comment
  else if nm = [] ∧ lead.getLast? ≠ some ' ' then Outcome.outOfBounds
  else
    if A.dropWhile isAgeSkip = [] then Outcome.ageMissing
    else
      match sscanf_u (A.dropWhile isAgeSkip) with
      | none => Outcome.badAge
      | some age =>
        if age ≤ filter_age_max then Outcome.kept (nm.rdropWhile isBlank) age
        else Outcome.tooOld

/-- The outcome of lines 93 to 122 for the name `name` and the text `A` that
follows the first comma. -/
def ageOutcome (filter_age_max : Nat) (name A : List Char) : Outcome :=
  if A.dropWhile isAgeSkip = [] then Outcome.ageMissing
  else
    match sscanf_u (A.dropWhile isAgeSkip) with
    | none => Outcome.badAge
    | some age =>
      if age ≤ filter_age_max then Outcome.kept name age
      else Outcome.tooOld

/-- The name field of a line: what stands in front of the first comma. -/
def nameField (pb : List Char) : List Char := pb.takeWhile (fun c => c != ',')

/-- The age field of a line: what follows the first comma. -/
def ageField (pb : List Char) : List Char := (pb.dropWhile (fun c => c != ',')).drop 1

/-- The outcome of an iteration in terms of the fields of the line `pb` (the
stored line without its terminator). -/
def classify (filter_age_max : Nat) (pb : List Char) : Outcome :=
  if ',' ∈ pb then
    fieldsOutcome filter_age_max ((nameField pb).takeWhile isBlank)
      ((nameField pb).dropWhile isBlank) (ageField pb)
  else if pb.dropWhile isBlank = [] then Outcome.emptyLine
  else if (pb.dropWhile isBlank).head? = some '#' then Outcome.comment
  else if (pb.dropWhile isBlank).take 2 = ['/', '/'] then Outcome.comment
  else Outcome.noComma

/-- The class of a line in terms of its fields, whether or not the name trim
stays inside the buffer; `pb` is the stored line without its terminator. -/
def rowClass (filter_age_max : Nat) (pb : List Char) : Outcome :=
  if pb.dropWhile isBlank = [] then Outcome.emptyLine
  else if (pb.dropWhile isBlank).head? = some '#' then Outcome.comment
  else if (pb.dropWhile isBlank).take 2 = ['/', '/'] then Outcome.comment
  else if ',' ∉ pb then Outcome.noComma
  else ageOutcome filter_age_max (((nameField pb).dropWhile isBlank).rdropWhile isBlank)
    (ageField pb)

/-! ## The function `main` -/

/-- The text written by `print_usage(prog)`. -/
def print_usage (prog : List Char) : List Char :=
  "Filters CSV rows, keeping only those with provided maximum age\n".toList ++ prog ++
  " max-age [input-file] [output-file]\nExample:\n".toList ++ prog ++
  " 18 input.csv output.csv\n".toList ++ prog ++
  " input.csv (output to stdout)\n".toList ++ prog ++
  " 18 (input from stdin, output to stdout)\n".toList

/-- What `main` sees of the outside: the content of `stdin`, and for each path
whether `fopen` succeeds (with the content of the file when opened for reading). -/
structure Env where
  stdin : List Char
  fopenRead : List Char → Option (List Char)
  fopenWrite : List Char → Bool

/-- The observable result of `main`. -/
structure MainResult where
  /-- The value returned by `main`. -/
  status : Nat
  /-- Text written to `stderr`, by `main` and by `filter_stream`. -/
  err : List Char
  /-- The calls of `fopen`, in order: the path and the mode. -/
  fopens : List (List Char × Char)
  /-- The state `filter_stream` ended in, when it was called. -/
  run : Option RunState
  deriving DecidableEq

/-- Lines 162 to 191, once `filter_age_max` is set: the streams are opened, then
`filter_stream` is called. -/
def mainRun (env : Env) (filter_age_max : Nat)
    (ifile ofile : Option (List Char)) : MainResult :=
  let inOpen : List (List Char × Char) :=
    match ifile with
    | some path => [(path, 'r')]
    | none => []
  let istream : Option (List Char) :=
    match ifile with
    | some path => env.fopenRead path
    | none => some env.stdin
  match istream with
  | none =>
    { status := EXIT_FAILURE,
      err := "Failed to open input file: ".toList ++ ifile.getD [] ++ "\n".toList,
      fopens := inOpen, run := none }
  | some content =>
    let outOpen : List (List Char × Char) :=
      match ofile with
      | some path => [(path, 'w')]
      | none => []
    let ok : Bool :=
      match ofile with
      | some path => env.fopenWrite path
      | none => true
    if ok then
      let st := filter_stream filter_age_max content
      { status := EXIT_SUCCESS, err := (st.log.map Diag.render).flatten,
        fopens := inOpen ++ outOpen, run := some st }
    else
      { status := EXIT_FAILURE,
        err := "Failed to open output file: ".toList ++ ofile.getD [],
        fopens := inOpen ++ outOpen, run := none }

/-- Lines 149 to 156, then the rest of `main`: `argv[1]` is scanned with `%u`. -/
def mainArgs (env : Env) (prog arg1 : List Char)
    (ifile ofile : Option (List Char)) : MainResult :=
  match sscanf_u arg1 with
  | none =>
    { status := EXIT_FAILURE,
      err := "First argument is not a valid number.\n".toList ++ print_usage prog,
      fopens := [], run := none }
  | some tmp => mainRun env tmp ifile ofile

/-- The function `main` for `argv = prog :: args`, so `argc = args.length + 1`.
The `switch` falls through from `case 4` to `case 2`. -/
def main (env : Env) (prog : List Char) (args : List (List Char)) : MainResult :=
  match args with
  | [a1] => mainArgs env prog a1 none none
  | [a1, a2] => mainArgs env prog a1 (some a2) none
  | [a1, a2, a3] => mainArgs env prog a1 (some a2) (some a3)
  | _ => { status := EXIT_FAILURE, err := print_usage prog, fopens := [], run := none }

/-! ## Notions used in the statements -/

/-- Text that begins a number for `%u`: after white space and an optional sign
comes a decimal digit. -/
def numericStart (s : List Char) : Bool :=
  match (scanSign (s.dropWhile isspace)).2 with
  | [] => false
  | c :: _ => isdigit c

/-- The lines of a text, each with its newline; a last fragment without newline
is a line when it is not empty. -/
def rawLines : List Char → List (List Char)
  | [] => []
  | c :: s =>
    if c = '\n' then [c] :: rawLines s
    else
      match rawLines s with
      | [] => [[c]]
      | l :: ls => (c :: l) :: ls

/-- What `fgets` can store in `line`: at least one and at most `LINE_MAX - 1`
bytes, with no newline before the last one. -/
def IsChunk (line : List Char) : Prop :=
  line ≠ [] ∧ line.length ≤ LINE_MAX - 1 ∧ '\n' ∉ line.dropLast

instance (line : List Char) : Decidable (IsChunk line) := by
  unfold IsChunk; infer_instance

/-- The line as the loop parses it: the C string stored by `fgets`, without its
terminator. -/
def lineText (line : List Char) : List Char := stripEol (cstr line)

/-- A field without its leading and trailing spaces and tabs. -/
def trimBlanks (l : List Char) : List Char := (l.dropWhile isBlank).rdropWhile isBlank

/-- The age field once the loop of line 93 has skipped spaces and carriage
returns. -/
def ageText (pb : List Char) : List Char := (ageField pb).dropWhile isAgeSkip

/-- The names the program writes: no comma, no newline and no `NUL`, neither
a leading nor a trailing space or tab, and not the start of a comment. -/
def GoodName (name : List Char) : Prop :=
  ',' ∉ name ∧ '\n' ∉ name ∧ NUL ∉ name ∧
  name.head?.any isBlank = false ∧ name.getLast?.any isBlank = false ∧
  name.head? ≠ some '#' ∧ name.take 2 ≠ ['/', '/']

instance (name : List Char) : Decidable (GoodName name) := by
  unfold GoodName; infer_instance

/-- The rows the program writes: a good name and an age that is an `unsigned`
not above `filter_age_max`. -/
def GoodRow (filter_age_max : Nat) (name : List Char) (age : Nat) : Prop :=
  GoodName name ∧ age ≤ filter_age_max ∧ age ≤ UINT_MAX

instance (filter_age_max : Nat) (name : List Char) (age : Nat) :
    Decidable (GoodRow filter_age_max name age) := by
  unfold GoodRow; infer_instance

/-- The line of a record `name,age`: the name with spaces or tabs around it, a
comma, spaces or tabs, the age in decimal and a newline. -/
def rowLine (lead name trail ws : List Char) (age : Nat) : List Char :=
  lead ++ name ++ trail ++ ',' :: (ws ++ utoa age) ++ ['\n']

/-- An environment in which `stdin` holds `text` and no file can be opened. -/
def stdinOnly (text : List Char) : Env :=
  { stdin := text, fopenRead := fun _ => none, fopenWrite := fun _ => false }

/-- The lines the loop reads from a stream: the successive results of `fgets`,
until it returns `NULL`.  The first argument bounds the number of calls. -/
def readLinesAux : Nat → List Char → List (List Char)
  | 0, _ => []
  | fuel + 1, inp =>
    match fgets LINE_MAX inp with
    | none => []
    | some (line, rest) => line :: readLinesAux fuel rest

/-- The lines the loop reads from the stream `inp`; every call of `fgets`
consumes a byte, so `inp.length` calls are enough. -/
def readLines (inp : List Char) : List (List Char) := readLinesAux inp.length inp

/-- The loop body applied to lines already read, in order. -/
def runLines (filter_age_max : Nat) : List (List Char) → RunState → RunState
  | [], st => st
  | line :: rest, st => runLines filter_age_max rest (step filter_age_max st line)

/-- The class the iteration puts a line in: that of `processLine`, and for a line
whose name trim goes in front of `parsebuffer` that of `afterStray`. -/
def rowOutcome (filter_age_max : Nat) (line : List Char) : Outcome :=
  match processLine filter_age_max line with
  | Outcome.outOfBounds => afterStray filter_age_max line
  | o => o

/-- The text an iteration writes to the output for a line: the row when the
line is accepted, nothing otherwise. -/
def rowText (filter_age_max : Nat) (line : List Char) : List Char :=
  match rowOutcome filter_age_max line with
  | Outcome.kept name age => formatRow name age
  | _ => []

/-- Whether the iteration accepts the line. -/
def isKept (filter_age_max : Nat) (line : List Char) : Bool :=
  match rowOutcome filter_age_max line with
  | Outcome.kept _ _ => true
  | _ => false

/-- The messages expected for the line number `n`: one message with the number
`n` when the line is classified as empty, comment, without comma, missing age
or malformed age, and none otherwise. -/
def lineDiag (filter_age_max : Nat) (n : Nat) (line : List Char) : List Diag :=
  match rowOutcome filter_age_max line with
  | Outcome.emptyLine => [Diag.emptyLine n]
  | Outcome.comment => [Diag.comment n]
  | Outcome.noComma => [Diag.noComma n (cstr line)]
  | Outcome.ageMissing => [Diag.ageMissing n (cstr line)]
  | Outcome.badAge => [Diag.badAge n (cstr line)]
  | Outcome.kept _ _ => []
  | Outcome.tooOld => []
  | Outcome.outOfBounds => []

/-- The messages expected for the lines `lines`, numbered from `n + 1`. -/
def diagsFrom (filter_age_max : Nat) : Nat → List (List Char) → List Diag
  | _, [] => []
  | n, line :: rest =>
    lineDiag filter_age_max (n + 1) line ++ diagsFrom filter_age_max (n + 1) rest

/-- The text in which every newline is replaced by a carriage return and a
newline. -/
def crlf (s : List Char) : List Char :=
  s.flatMap (fun c => if c = '\n' then ['\r', '\n'] else [c])

/-- What an outcome does to the output and the counters: the five logged skips
act as the silent skip. -/
def Outcome.core : Outcome → Outcome
  | Outcome.kept name age => Outcome.kept name age
  | Outcome.outOfBounds => Outcome.outOfBounds
  | _ => Outcome.tooOld

/-- A text cut into consecutive pieces of `LINE_MAX - 1` bytes, the last piece
holding what is left; the first argument bounds the number of pieces. -/
def piecesAux : Nat → List Char → List (List Char)
  | 0, _ => []
  | fuel + 1, s =>
    if s = [] then []
    else s.take (LINE_MAX - 1) :: piecesAux fuel (s.drop (LINE_MAX - 1))

/-- The pieces of `LINE_MAX - 1` bytes of a text. -/
def pieces (s : List Char) : List (List Char) := piecesAux s.length s

/-! ## Buffers and the trim loop -/

theorem getD_append_cons (l : List Char) (c : Char) (r : List Char) (d : Char) :
    (l ++ c :: r).getD l.length d = c := by
  induction l with
  | nil => rfl
  | cons a l ih => simpa using ih

theorem set_append_cons (l : List Char) (c x : Char) (r : List Char) :
    (l ++ c :: r).set l.length x = l ++ x :: r := by
  induction l with
  | nil => rfl
  | cons a l ih => simp [ih]

theorem trimLoop_succ (s k : Nat) (buf : List Char) :
    trimLoop s (k + 1) buf =
      if (k + 1 ≠ s ∧ buf.getD k NUL = ' ') ∨ buf.getD k NUL = '\t'
      then trimLoop s k (buf.set k NUL) else some (k + 1, buf) := rfl

theorem isBlank_iff (c : Char) : isBlank c = true ↔ c = ' ' ∨ c = '\t' := by
  simp [isBlank]

/-- Below the start of the name every blank byte keeps the loop going, down to
`parsebuffer[-1]`. -/

theorem trimLoop_below (s : Nat) (bl : List Char) (hbl : ∀ c ∈ bl, isBlank c = true) :
    ∀ r : List Char, bl.length < s → trimLoop s bl.length (bl ++ r) = none := by
  induction bl using List.reverseRecOn with
  | nil => intro r _; rfl
  | append_singleton b c ih =>
    intro r hs
    have hc : isBlank c = true := hbl c (by simp)
    have hb : ∀ x ∈ b, isBlank x = true := fun x hx => hbl x (by simp [hx])
    rw [isBlank_iff] at hc
    simp only [List.length_append, List.length_singleton] at hs ⊢
    simp only [List.append_assoc, List.singleton_append]
    rw [trimLoop_succ]
    simp only [getD_append_cons, set_append_cons]
    have hne : b.length + 1 ≠ s := by omega
    have hcond : (b.length + 1 ≠ s ∧ c = ' ') ∨ c = '\t' := by
      rcases hc with h | h
      · exact Or.inl ⟨hne, h⟩
      · exact Or.inr h
    rw [if_pos hcond]
    exact ih hb (NUL :: r) (by omega)

/-- Inside the name every blank byte is overwritten. -/

theorem trimLoop_blanks (s : Nat) (bl : List Char) (hbl : ∀ c ∈ bl, isBlank c = true) :
    ∀ (f r : List Char), s ≤ f.length →
      trimLoop s (f.length + bl.length) (f ++ bl ++ r)
        = trimLoop s f.length (f ++ List.replicate bl.length NUL ++ r) := by
  induction bl using List.reverseRecOn with
  | nil => intro f r _; simp
  | append_singleton b c ih =>
    intro f r hs
    have hc : isBlank c = true := hbl c (by simp)
    have hb : ∀ x ∈ b, isBlank x = true := fun x hx => hbl x (by simp [hx])
    rw [isBlank_iff] at hc
    have e1 : f.length + (b ++ [c]).length = (f ++ b).length + 1 := by simp; omega
    have e2 : f ++ (b ++ [c]) ++ r = (f ++ b) ++ c :: r := by simp
    rw [e1, e2]
    rw [trimLoop_succ]
    simp only [getD_append_cons, set_append_cons]
    have hne : (f ++ b).length + 1 ≠ s := by simp; omega
    have hcond : ((f ++ b).length + 1 ≠ s ∧ c = ' ') ∨ c = '\t' := by
      rcases hc with h | h
      · exact Or.inl ⟨hne, h⟩
      · exact Or.inr h
    rw [if_pos hcond]
    have := ih hb f (NUL :: r) hs
    simp only [List.length_append] at this ⊢
    rw [this]
    congr 1
    simp [List.replicate_succ']

/-- The loop stops at a byte that is neither a space nor a tab. -/

theorem trimLoop_stop (s : Nat) (f : List Char) (c : Char) (r : List Char)
    (hc : isBlank c = false) :
    trimLoop s (f.length + 1) (f ++ c :: r) = some (f.length + 1, f ++ c :: r) := by
  rw [trimLoop_succ]
  simp only [getD_append_cons]
  have h1 : c ≠ ' ' := by intro h; subst h; simp [isBlank] at hc
  have h2 : c ≠ '\t' := by intro h; subst h; simp [isBlank] at hc
  simp [h1, h2]

theorem cstr_append_nul (a r : List Char) (h : NUL ∉ a) : cstr (a ++ NUL :: r) = a := by
  induction a with
  | nil => simp [cstr]
  | cons x a ih =>
    have hx : x ≠ NUL := fun e => h (by simp [e])
    have ha : NUL ∉ a := fun e => h (by simp [e])
    have := ih ha
    simp only [cstr] at this ⊢
    simp [hx, this]

theorem cstr_of_not_mem (a : List Char) (h : NUL ∉ a) : cstr a = a := by
  induction a with
  | nil => simp [cstr]
  | cons x a ih =>
    have hx : x ≠ NUL := fun e => h (by simp [e])
    have ha : NUL ∉ a := fun e => h (by simp [e])
    have := ih ha
    simp only [cstr] at this ⊢
    simp [hx, this]

theorem nul_not_mem_cstr (b : List Char) : NUL ∉ cstr b := by
  intro h
  have := List.mem_takeWhile_imp h
  simp at this

theorem rdropWhile_split (p : Char → Bool) (l : List Char) :
    ∃ bl, l = l.rdropWhile p ++ bl ∧ ∀ c ∈ bl, p c = true := by
  induction l using List.reverseRecOn with
  | nil => exact ⟨[], by simp, by simp⟩
  | append_singleton b c ih =>
    by_cases hc : p c = true
    · obtain ⟨bl, h1, h2⟩ := ih
      refine ⟨bl ++ [c], ?_, ?_⟩
      · rw [List.rdropWhile_concat_pos _ _ _ hc, ← List.append_assoc, ← h1]
      · intro x hx
        rcases List.mem_append.1 hx with h | h
        · exact h2 x h
        · simp at h; subst h; exact hc
    · exact ⟨[], by rw [List.rdropWhile_concat_neg _ _ _ hc]; simp, by simp⟩

/-- The trim loop on a name that is not empty: the trailing blanks are cut. -/

theorem trimLoop_name (lead nm A : List Char) (hne : nm ≠ [])
    (hhead : ∀ c, nm.head? = some c → isBlank c = false) :
    ∃ k buf1, trimLoop lead.length (lead.length + nm.length) (lead ++ nm ++ NUL :: A)
        = some (k, buf1) ∧
      ∃ z, buf1 = lead ++ nm.rdropWhile isBlank ++ List.replicate z NUL ++ NUL :: A ∧
        (nm.rdropWhile isBlank).length + z = nm.length := by
  obtain ⟨bl, hsplit, hbl⟩ := rdropWhile_split isBlank nm
  have hw : nm.rdropWhile isBlank ≠ [] := by
    intro h
    rw [List.rdropWhile_eq_nil_iff] at h
    cases nm with
    | nil => exact hne rfl
    | cons x t =>
      have := hhead x rfl
      rw [h x (by simp)] at this
      exact Bool.noConfusion this
  have hlast := List.rdropWhile_last_not isBlank nm hw
  generalize nm.rdropWhile isBlank = w at hsplit hw hlast ⊢
  obtain ⟨w0, c, rfl⟩ : ∃ w0 c, w = w0 ++ [c] :=
    ⟨w.dropLast, w.getLast hw, (List.dropLast_append_getLast hw).symm⟩
  have hc : isBlank c = false := by simpa using hlast
  subst hsplit
  have e1 : lead.length + (w0 ++ [c] ++ bl).length = (lead ++ (w0 ++ [c])).length + bl.length := by
    simp only [List.length_append, List.length_singleton]; omega
  have e2 : lead ++ (w0 ++ [c] ++ bl) ++ NUL :: A = (lead ++ (w0 ++ [c])) ++ bl ++ NUL :: A := by
    simp
  have e3 : (lead ++ (w0 ++ [c])).length = (lead ++ w0).length + 1 := by
    simp only [List.length_append, List.length_singleton]; omega
  have e4 : lead ++ (w0 ++ [c]) ++ List.replicate bl.length NUL ++ NUL :: A
      = (lead ++ w0) ++ c :: (List.replicate bl.length NUL ++ NUL :: A) := by simp
  refine ⟨(lead ++ w0).length + 1, (lead ++ w0) ++ c :: (List.replicate bl.length NUL ++ NUL :: A),
    ?_, bl.length, e4.symm, ?_⟩
  · rw [e1, e2, trimLoop_blanks _ bl hbl _ _ (by simp), e3, e4, trimLoop_stop _ _ _ _ hc]
  · simp only [List.length_append, List.length_singleton]

/-- The trim loop on an empty name: it reads the byte in front of the name. -/

theorem trimLoop_empty (lead A : List Char) (hlead : ∀ c ∈ lead, isBlank c = true) :
    trimLoop lead.length lead.length (lead ++ NUL :: A)
      = if lead.getLast? = some ' ' then some (lead.length, lead ++ NUL :: A) else none := by
  induction lead using List.reverseRecOn with
  | nil => rfl
  | append_singleton l c _ =>
    have hc : isBlank c = true := hlead c (by simp)
    have hl : ∀ x ∈ l, isBlank x = true := fun x hx => hlead x (by simp [hx])
    rw [isBlank_iff] at hc
    have e1 : (l ++ [c]).length = l.length + 1 := by simp
    have e2 : l ++ [c] ++ NUL :: A = l ++ c :: NUL :: A := by simp
    rw [List.getLast?_concat, e1, e2, trimLoop_succ]
    simp only [getD_append_cons, set_append_cons]
    rcases hc with h | h
    · subst h
      simp
    · subst h
      simp
      exact trimLoop_below _ l hl _ (by omega)

/-- The outcome of a line `lead ++ nm ++ ',' :: A`, where `lead` is the leading
run of spaces and tabs, `nm` the rest in front of the first comma and `A` what
follows that comma. -/

theorem headD_eq_nul_iff (l : List Char) (h : NUL ∉ l) : l.headD NUL = NUL ↔ l = [] := by
  cases l with
  | nil => simp
  | cons x t =>
    have : x ≠ NUL := fun e => h (by simp [e])
    simp [this]

theorem not_mem_dropWhile (p : Char → Bool) (l : List Char) (c : Char) (h : c ∉ l) :
    c ∉ l.dropWhile p := fun hc => h ((List.dropWhile_sublist p).subset hc)

theorem processLine_fields (mx : Nat) (line lead nm A : List Char)
    (hpb : stripEol (cstr line) = lead ++ nm ++ ',' :: A)
    (hlead : ∀ c ∈ lead, isBlank c = true)
    (hhead : ∀ c, nm.head? = some c → isBlank c = false)
    (hcomma : ',' ∉ nm) (hnul : NUL ∉ nm) (hA : NUL ∉ A) :
    processLine mx line = fieldsOutcome mx lead nm A := by
  have hrest : (nm ++ ',' :: A).takeWhile isBlank = [] := by
    cases nm with
    | nil => simp [isBlank]
    | cons x t => simp [hhead x rfl]
  have f1 : (lead ++ nm ++ ',' :: A).takeWhile isBlank = lead := by
    rw [List.append_assoc, List.takeWhile_append_of_pos hlead, hrest, List.append_nil]
  have f2 : (lead ++ nm ++ ',' :: A).drop lead.length = nm ++ ',' :: A := by
    rw [List.append_assoc, List.drop_left]
  have hcl : ',' ∉ lead := fun h => by have := hlead _ h; simp [isBlank] at this
  have f3 : List.indexOf ',' (lead ++ nm ++ ',' :: A) = lead.length + nm.length := by
    have : ',' ∉ lead ++ nm := by simp [hcl, hcomma]
    rw [List.indexOf_append_of_not_mem this, List.indexOf_cons_self]
    simp
  have f4 : (lead ++ nm ++ ',' :: A).set (lead.length + nm.length) NUL
      = lead ++ nm ++ NUL :: A := by
    rw [← List.length_append, set_append_cons]
  have f5 : (lead ++ nm ++ NUL :: A).drop lead.length = nm ++ NUL :: A := by
    rw [List.append_assoc, List.drop_left]
  have f6 : cstr (nm ++ NUL :: A) = nm := cstr_append_nul nm A hnul
  have f7 : lead.length + nm.length ≠ (lead ++ nm ++ ',' :: A).length := by simp
  have f8 : (nm ++ ',' :: A).headD NUL ≠ NUL := by
    cases nm with
    | nil => simp [NUL]
    | cons x t => simpa using fun e => hnul (by simp [e])
  have f9 : (nm ++ ',' :: A).headD NUL = '#' ↔ nm.head? = some '#' := by
    cases nm with
    | nil => simp
    | cons x t => simp
  have f10 : ((nm ++ ',' :: A).headD NUL = '/' ∧ ((nm ++ ',' :: A).drop 1).headD NUL = '/')
      ↔ nm.take 2 = ['/', '/'] := by
    cases nm with
    | nil => simp
    | cons x t =>
      cases t with
      | nil => simp
      | cons y u => simp
  unfold processLine fieldsOutcome
  simp only [hpb, f1, f2, f3, f4, f5, f6, f7, f8, f9, f10, if_false]
  by_cases h1 : nm.head? = some '#'
  · simp [h1]
  by_cases h2 : nm.take 2 = ['/', '/']
  · simp [h1, h2]
  simp only [h1, h2, if_false]
  have hAs : NUL ∉ A.dropWhile isAgeSkip := not_mem_dropWhile _ _ _ hA
  by_cases hnm : nm = []
  · subst hnm
    simp only [List.append_nil, List.length_nil, Nat.add_zero, trimLoop_empty lead A hlead,
      true_and]
    by_cases hl : lead.getLast? = some ' '
    · simp only [hl, if_true, not_true_eq_false, if_false, ne_eq]
      have g1 : (lead ++ NUL :: A).drop (lead.length + 1) = A := by
        rw [show lead ++ NUL :: A = (lead ++ [NUL]) ++ A by simp,
          show lead.length + 1 = (lead ++ [NUL]).length by simp, List.drop_left]
      have g2 : (lead ++ NUL :: A).drop lead.length = NUL :: A := by rw [List.drop_left]
      simp only [g1, g2, cstr_of_not_mem A hA, headD_eq_nul_iff _ hAs]
      have g3 : cstr (NUL :: A) = [] := by simp [cstr]
      simp only [g3, List.rdropWhile_nil]
    · simp [hl]
  · obtain ⟨k, buf1, hk, z, hb, hz⟩ := trimLoop_name lead nm A hnm hhead
    simp only [hk, hnm, false_and, if_false]
    have hw : NUL ∉ nm.rdropWhile isBlank :=
      fun h => hnul ((List.rdropWhile_prefix isBlank nm).subset h)
    have g1 : buf1.drop (lead.length + nm.length + 1) = A := by
      rw [hb, show lead ++ nm.rdropWhile isBlank ++ List.replicate z NUL ++ NUL :: A
          = (lead ++ nm.rdropWhile isBlank ++ List.replicate z NUL ++ [NUL]) ++ A by simp]
      rw [show lead.length + nm.length + 1
          = (lead ++ nm.rdropWhile isBlank ++ List.replicate z NUL ++ [NUL]).length by
            simp; omega, List.drop_left]
    have g2 : cstr (buf1.drop lead.length) = nm.rdropWhile isBlank := by
      rw [hb, List.append_assoc, List.append_assoc, List.drop_left]
      cases z with
      | zero => simpa using cstr_append_nul _ A hw
      | succ z =>
        rw [List.replicate_succ, List.cons_append]
        exact cstr_append_nul _ _ hw
    simp only [g1, g2, cstr_of_not_mem A hA, headD_eq_nul_iff _ hAs]

theorem stripEol_subset (b : List Char) : stripEol b ⊆ b := by
  unfold stripEol
  intro c hc
  simp only at hc
  split at hc
  · split at hc
    · exact (List.dropLast_subset _) ((List.dropLast_subset _) hc)
    · exact (List.dropLast_subset _) hc
  · split at hc
    · exact (List.dropLast_subset _) hc
    · exact hc

theorem nul_not_mem_content (line : List Char) : NUL ∉ stripEol (cstr line) :=
  fun h => nul_not_mem_cstr line (stripEol_subset _ h)

theorem fields_split (pb : List Char) (h : ',' ∈ pb) :
    pb = nameField pb ++ ',' :: ageField pb := by
  unfold nameField ageField
  induction pb with
  | nil => simp at h
  | cons x t ih =>
    by_cases hx : x = ','
    · subst hx; simp
    · have ht : ',' ∈ t := by
        rcases List.mem_cons.1 h with h | h
        · exact absurd h.symm hx
        · exact h
      have := ih ht
      simp only [List.takeWhile_cons, List.dropWhile_cons, bne_iff_ne, ne_eq, hx,
        not_false_eq_true, decide_True, if_true, List.cons_append]
      rw [← this]

theorem comma_not_mem_nameField (pb : List Char) : ',' ∉ nameField pb := by
  intro h
  have := List.mem_takeWhile_imp h
  simp at this

theorem drop_takeWhile_length (p : Char → Bool) (l : List Char) :
    l.drop (l.takeWhile p).length = l.dropWhile p := by
  induction l with
  | nil => rfl
  | cons x t ih =>
    by_cases hx : p x = true
    · simp [List.takeWhile_cons, List.dropWhile_cons, hx, ih]
    · simp [List.takeWhile_cons, List.dropWhile_cons, hx]

theorem head_dropWhile_blank (l : List Char) :
    ∀ c, (l.dropWhile isBlank).head? = some c → isBlank c = false := by
  intro c hc
  induction l with
  | nil => simp at hc
  | cons x t ih =>
    by_cases hx : isBlank x = true
    · rw [List.dropWhile_cons_of_pos hx] at hc
      exact ih hc
    · rw [List.dropWhile_cons_of_neg hx] at hc
      simp at hc
      subst hc
      simpa using hx

/-- The loop body computes the classification by fields. -/

theorem processLine_eq_classify (mx : Nat) (line : List Char) :
    processLine mx line = classify mx (stripEol (cstr line)) := by
  have hnul := nul_not_mem_content line
  generalize hpb : stripEol (cstr line) = pb at hnul
  unfold classify
  by_cases hc : ',' ∈ pb
  · rw [if_pos hc]
    have hs := fields_split pb hc
    have hF : nameField pb = (nameField pb).takeWhile isBlank ++ (nameField pb).dropWhile isBlank :=
      (List.takeWhile_append_dropWhile isBlank (nameField pb)).symm
    have hF1 : NUL ∉ nameField pb := fun h => hnul (by rw [hs]; simp [h])
    have hA : NUL ∉ ageField pb := fun h => hnul (by rw [hs]; simp [h])
    apply processLine_fields
    · rw [hpb, ← hF]; exact hs
    · intro c hc; exact List.mem_takeWhile_imp hc
    · exact head_dropWhile_blank _
    · exact not_mem_dropWhile _ _ _ (comma_not_mem_nameField pb)
    · exact not_mem_dropWhile _ _ _ hF1
    · exact hA
  · rw [if_neg hc]
    unfold processLine
    simp only [hpb, drop_takeWhile_length]
    have hb : NUL ∉ pb.dropWhile isBlank := not_mem_dropWhile _ _ _ hnul
    have hi : List.indexOf ',' pb = pb.length := List.indexOf_eq_length.2 hc
    simp only [headD_eq_nul_iff _ hb, hi, if_true]
    by_cases h0 : pb.dropWhile isBlank = []
    · simp [h0]
    · simp only [h0, if_false]
      obtain ⟨x, t, hxt⟩ := List.exists_cons_of_ne_nil h0
      rw [hxt]
      have hn : NUL ≠ '/' := by decide
      cases t with
      | nil => simp [hn]
      | cons y u => simp

/-! ## Scanning and printing numbers -/

theorem digit_char_facts : ∀ d < 10, isdigit (Char.ofNat (48 + d)) = true ∧
    digitVal (Char.ofNat (48 + d)) = d := by decide

theorem ne_of_isdigit (c x : Char) (h : isdigit c = true) (hx : isdigit x = false) : c ≠ x := by
  intro e; subst e; rw [h] at hx; exact Bool.noConfusion hx

theorem isdigit_facts (c : Char) (h : isdigit c = true) :
    isspace c = false ∧ isBlank c = false ∧ isAgeSkip c = false ∧ c ≠ '-' ∧ c ≠ '+' ∧
      c ≠ ',' ∧ c ≠ '\n' ∧ c ≠ NUL ∧ c ≠ '\r' ∧ c ≠ '#' ∧ c ≠ '/' := by
  have n1 := ne_of_isdigit c ' ' h (by decide)
  have n2 := ne_of_isdigit c '\t' h (by decide)
  have n3 := ne_of_isdigit c '\n' h (by decide)
  have n4 := ne_of_isdigit c (Char.ofNat 11) h (by decide)
  have n5 := ne_of_isdigit c (Char.ofNat 12) h (by decide)
  have n6 := ne_of_isdigit c '\r' h (by decide)
  refine ⟨by simp [isspace, n1, n2, n3, n4, n5, n6], by simp [isBlank, n1, n2],
    by simp [isAgeSkip, n1, n6], ne_of_isdigit c _ h (by decide), ne_of_isdigit c _ h (by decide),
    ne_of_isdigit c _ h (by decide), n3, ne_of_isdigit c _ h (by decide), n6,
    ne_of_isdigit c _ h (by decide), ne_of_isdigit c _ h (by decide)⟩

theorem digitsVal_append (a : List Char) (c : Char) :
    digitsVal (a ++ [c]) = digitsVal a * 10 + digitVal c := by
  simp [digitsVal, List.foldl_append]

/-- The digits printed for `n`: not empty, all decimal digits, of value `n`. -/
theorem utoaAux_spec : ∀ (fuel n : Nat) (acc : List Char), n < fuel →
    ∃ ds, utoaAux fuel n acc = ds ++ acc ∧ ds ≠ [] ∧ (∀ c ∈ ds, isdigit c = true) ∧
      digitsVal ds = n := by
  intro fuel
  induction fuel with
  | zero => intro n acc h; omega
  | succ fuel ih =>
    intro n acc h
    have hd := digit_char_facts (n % 10) (Nat.mod_lt _ (by decide))
    unfold utoaAux
    by_cases h0 : n / 10 = 0
    · refine ⟨[Char.ofNat (48 + n % 10)], by simp [h0], by simp, by simpa using hd.1, ?_⟩
      have e : digitsVal [Char.ofNat (48 + n % 10)] = digitVal (Char.ofNat (48 + n % 10)) := by
        simp [digitsVal]
      rw [e, hd.2]; omega
    · obtain ⟨ds, h1, h2, h3, h4⟩ := ih (n / 10) (Char.ofNat (48 + n % 10) :: acc) (by omega)
      refine ⟨ds ++ [Char.ofNat (48 + n % 10)], by simp [h0, h1], by simp, ?_, ?_⟩
      · intro c hc
        rcases List.mem_append.1 hc with hc | hc
        · exact h3 c hc
        · simp at hc; subst hc; exact hd.1
      · rw [digitsVal_append, h4, hd.2]; omega

theorem utoa_spec (n : Nat) :
    utoa n ≠ [] ∧ (∀ c ∈ utoa n, isdigit c = true) ∧ digitsVal (utoa n) = n := by
  obtain ⟨ds, h1, h2, h3, h4⟩ := utoaAux_spec (n + 1) n [] (by omega)
  simp only [List.append_nil] at h1
  unfold utoa
  rw [h1]
  exact ⟨h2, h3, h4⟩

theorem sscanf_u_eq_none_iff (s : List Char) : sscanf_u s = none ↔ numericStart s = false := by
  unfold sscanf_u numericStart
  simp only []
  generalize (scanSign (s.dropWhile isspace)).2 = t
  cases t with
  | nil => simp
  | cons c u =>
    by_cases hc : isdigit c = true
    · simp [hc, List.takeWhile_cons]
    · simp [hc, List.takeWhile_cons]

theorem sscanf_u_le (s : List Char) (v : Nat) (h : sscanf_u s = some v) : v ≤ UINT_MAX := by
  unfold sscanf_u at h
  simp only at h
  split at h
  · exact Option.noConfusion h
  · have := Option.some.inj h
    rw [← this]
    exact Nat.lt_succ_iff.1 (Nat.mod_lt _ (by decide))

theorem scanSign_digit (c : Char) (t : List Char) (h : isdigit c = true) :
    scanSign (c :: t) = (false, c :: t) := by
  have f := isdigit_facts c h
  unfold scanSign
  split
  · rename_i heq; simp at heq; exact absurd heq.1 f.2.2.2.1
  · rename_i heq; simp at heq; exact absurd heq.1 f.2.2.2.2.1
  · rfl

/-- A field that begins with a digit: `%u` converts its leading run of digits. -/
theorem sscanf_u_digits (c : Char) (t : List Char) (h : isdigit c = true) :
    sscanf_u (c :: t) =
      some ((if ULONG_MAX < digitsVal ((c :: t).takeWhile isdigit) then ULONG_MAX
             else digitsVal ((c :: t).takeWhile isdigit)) % (UINT_MAX + 1)) := by
  have f := isdigit_facts c h
  unfold sscanf_u
  have h1 : (c :: t).dropWhile isspace = c :: t := by simp [List.dropWhile_cons, f.1]
  simp only [h1, scanSign_digit c t h]
  have h2 : (c :: t).takeWhile isdigit ≠ [] := by simp [List.takeWhile_cons, h]
  simp [h2]

theorem takeWhile_digits_append (ds r : List Char) (hds : ∀ c ∈ ds, isdigit c = true)
    (hr : ∀ c, r.head? = some c → isdigit c = false) :
    (ds ++ r).takeWhile isdigit = ds := by
  rw [List.takeWhile_append_of_pos hds]
  cases r with
  | nil => simp
  | cons x u => simp [List.takeWhile_cons, hr x rfl]

/-- Reading back a printed `unsigned`. -/
theorem sscanf_u_utoa (a : Nat) (r : List Char) (ha : a ≤ UINT_MAX)
    (hr : ∀ c, r.head? = some c → isdigit c = false) :
    sscanf_u (utoa a ++ r) = some a := by
  obtain ⟨h1, h2, h3⟩ := utoa_spec a
  obtain ⟨c, t, hct⟩ := List.exists_cons_of_ne_nil h1
  have hc : isdigit c = true := h2 c (by simp [hct])
  have e : utoa a ++ r = c :: (t ++ r) := by simp [hct]
  rw [e, sscanf_u_digits c _ hc, ← e, takeWhile_digits_append _ _ h2 hr, h3]
  have : ¬ ULONG_MAX < a := by unfold UINT_MAX at ha; unfold ULONG_MAX; omega
  rw [if_neg this, Nat.mod_eq_of_lt (by omega)]

/-! ## Reading lines and the loop -/

theorem fgetsAux_nil (k : Nat) : fgetsAux k [] = ([], []) := by
  cases k <;> rfl

theorem fgetsAux_append (k : Nat) (s : List Char) :
    (fgetsAux k s).1 ++ (fgetsAux k s).2 = s := by
  induction k generalizing s with
  | zero => rfl
  | succ k ih =>
    cases s with
    | nil => rfl
    | cons c t =>
      unfold fgetsAux
      by_cases hc : c = '\n'
      · simp [hc]
      · simp [hc, ih t]

theorem fgetsAux_length (k : Nat) (s : List Char) : (fgetsAux k s).1.length ≤ k := by
  induction k generalizing s with
  | zero => simp [fgetsAux]
  | succ k ih =>
    cases s with
    | nil => simp [fgetsAux]
    | cons c t =>
      unfold fgetsAux
      by_cases hc : c = '\n'
      · simp [hc]
      · simpa [hc] using ih t

theorem fgetsAux_newline (k : Nat) (s : List Char) : '\n' ∉ (fgetsAux k s).1.dropLast := by
  induction k generalizing s with
  | zero => simp [fgetsAux]
  | succ k ih =>
    cases s with
    | nil => simp [fgetsAux]
    | cons c t =>
      unfold fgetsAux
      by_cases hc : c = '\n'
      · simp [hc]
      · simp only [hc, if_false]
        intro h
        cases hq : (fgetsAux k t).1 with
        | nil => rw [hq] at h; simp at h
        | cons x u =>
          rw [hq, List.dropLast_cons₂] at h
          rcases List.mem_cons.1 h with h | h
          · exact hc h.symm
          · exact ih t (by rw [hq]; exact h)

theorem fgetsAux_ne_nil (k : Nat) (c : Char) (t : List Char) :
    (fgetsAux (k + 1) (c :: t)).1 ≠ [] := by
  unfold fgetsAux
  by_cases hc : c = '\n' <;> simp [hc]

/-- What `fgets` returns: a chunk, and the stream is the chunk followed by what
is left unread. -/
theorem fgets_some (inp line rest : List Char) (h : fgets LINE_MAX inp = some (line, rest)) :
    IsChunk line ∧ inp = line ++ rest := by
  cases inp with
  | nil => simp [fgets] at h
  | cons c t =>
    simp only [fgets, Option.some.injEq] at h
    have h1 : line = (fgetsAux (LINE_MAX - 1) (c :: t)).1 := by rw [h]
    have h2 : rest = (fgetsAux (LINE_MAX - 1) (c :: t)).2 := by rw [h]
    subst h1 h2
    exact ⟨⟨fgetsAux_ne_nil 98 c t, fgetsAux_length _ _, fgetsAux_newline _ _⟩,
      (fgetsAux_append _ _).symm⟩

theorem fgets_eq_none (inp : List Char) : fgets LINE_MAX inp = none ↔ inp = [] := by
  cases inp <;> simp [fgets]

/-- A line with its newline that fits the buffer is read whole. -/
theorem fgetsAux_line (l r : List Char) (hl : '\n' ∉ l) :
    ∀ k, l.length < k → fgetsAux k (l ++ '\n' :: r) = (l ++ ['\n'], r) := by
  induction l with
  | nil =>
    intro k hk
    obtain ⟨k, rfl⟩ : ∃ j, k = j + 1 := ⟨k - 1, by simp at hk; omega⟩
    simp [fgetsAux]
  | cons x t ih =>
    intro k hk
    obtain ⟨k, rfl⟩ : ∃ j, k = j + 1 := ⟨k - 1, by simp at hk; omega⟩
    have hx : x ≠ '\n' := fun e => hl (by simp [e])
    have ht : '\n' ∉ t := fun e => hl (by simp [e])
    have e := ih ht k (by simpa using hk)
    rw [List.cons_append]
    unfold fgetsAux
    rw [if_neg hx, e]
    rfl

theorem fgets_line (l r : List Char) (hl : '\n' ∉ l) (hlen : l.length + 1 ≤ LINE_MAX - 1) :
    fgets LINE_MAX (l ++ '\n' :: r) = some (l ++ ['\n'], r) := by
  have := fgetsAux_line l r hl (LINE_MAX - 1) (by omega)
  cases l with
  | nil => simpa [fgets] using this
  | cons x t => simpa [fgets] using this

/-- A fuel of at least the length of the input is never exhausted. -/
theorem filterLoop_fuel (mx : Nat) : ∀ (f1 f2 : Nat) (inp : List Char) (st : RunState),
    inp.length ≤ f1 → inp.length ≤ f2 → filterLoop mx f1 inp st = filterLoop mx f2 inp st := by
  intro f1
  induction f1 with
  | zero =>
    intro f2 inp st h1 _
    have : inp = [] := List.length_eq_zero.1 (by omega)
    subst this
    cases f2 <;> simp [filterLoop, fgets]
  | succ f1 ih =>
    intro f2 inp st h1 h2
    cases inp with
    | nil => cases f2 <;> simp [filterLoop, fgets]
    | cons c t =>
      obtain ⟨f2, rfl⟩ : ∃ j, f2 = j + 1 := ⟨f2 - 1, by simp at h2; omega⟩
      unfold filterLoop
      cases hf : fgets LINE_MAX (c :: t) with
      | none => rfl
      | some lr =>
        obtain ⟨line, rest⟩ := lr
        obtain ⟨⟨hne, _, _⟩, happ⟩ := fgets_some _ _ _ hf
        have hlen : rest.length < (c :: t).length := by
          rw [happ, List.length_append]
          have := List.length_pos.2 hne
          omega
        simp only
        exact ih f2 rest _ (by omega) (by omega)

/-! ## Accepted rows -/

theorem newline_not_mem_stripEol (b : List Char) (h : '\n' ∉ b.dropLast) :
    '\n' ∉ stripEol b := by
  unfold stripEol
  by_cases h1 : b.getLast? = some '\n' ∨ b.getLast? = some '\r'
  · simp only [h1, if_true]
    split
    · exact fun hc => h (List.dropLast_subset _ hc)
    · exact h
  · simp only [h1, if_false]
    have hb : '\n' ∉ b := by
      intro hc
      rcases List.eq_nil_or_concat b with e | ⟨l, x, e⟩
      · subst e; simp at hc
      · subst e
        simp only [List.concat_eq_append] at h h1 hc
        rw [List.dropLast_concat] at h
        rw [List.getLast?_concat] at h1
        rcases List.mem_append.1 hc with hc | hc
        · exact h hc
        · simp at hc; subst hc; exact h1 (Or.inl rfl)
    split
    · exact fun hc => hb (List.dropLast_subset _ hc)
    · exact hb

theorem dropLast_prefix_not_mem (b l : List Char) (c : Char) (hp : b <+: l)
    (h : c ∉ l.dropLast) : c ∉ b.dropLast := by
  obtain ⟨t, rfl⟩ := hp
  cases t with
  | nil => simpa using h
  | cons x u =>
    rw [List.dropLast_append_cons] at h
    exact fun hc => h (List.mem_append_left _ (List.dropLast_subset _ hc))

/-- The parsed text of a line read by `fgets` has no newline. -/
theorem newline_not_mem_lineText (line : List Char) (h : IsChunk line) :
    '\n' ∉ lineText line := by
  apply newline_not_mem_stripEol
  exact dropLast_prefix_not_mem _ line _ (List.takeWhile_prefix _) h.2.2

theorem take_two_of_initial (a b : List Char) (x y : Char) (hp : a <+: b)
    (h : a.take 2 = [x, y]) : b.take 2 = [x, y] := by
  obtain ⟨t, rfl⟩ := hp
  match a, h with
  | p :: q :: u, h => simpa using h

theorem head_of_initial (a b : List Char) (hp : a <+: b) (c : Char) (h : a.head? = some c) :
    b.head? = some c := by
  obtain ⟨t, rfl⟩ := hp
  cases a with
  | nil => simp at h
  | cons p u => simpa using h

theorem option_any_false_iff (o : Option Char) (p : Char → Bool) :
    o.any p = false ↔ ∀ c, o = some c → p c = false := by
  cases o with
  | none => simp
  | some x => simp

/-! ## The text written to the output -/

theorem rawLines_line (l r : List Char) (hl : '\n' ∉ l) :
    rawLines (l ++ '\n' :: r) = (l ++ ['\n']) :: rawLines r := by
  induction l with
  | nil => simp [rawLines]
  | cons x t ih =>
    have hx : x ≠ '\n' := fun e => hl (by simp [e])
    have ht : '\n' ∉ t := fun e => hl (by simp [e])
    rw [List.cons_append, rawLines, if_neg hx, ih ht]
    rfl

theorem utoa_not_mem (a : Nat) (c : Char) (hc : isdigit c = false) : c ∉ utoa a := by
  intro h
  rw [(utoa_spec a).2.1 c h] at hc
  exact Bool.noConfusion hc

/-- A written row is a text without newline followed by a newline. -/
theorem formatRow_eq (name : List Char) (age : Nat) :
    formatRow name age = (name ++ ',' :: ' ' :: utoa age) ++ ['\n'] := by
  simp [formatRow]

theorem newline_not_mem_row (name : List Char) (age : Nat) (h : '\n' ∉ name) :
    '\n' ∉ name ++ ',' :: ' ' :: utoa age := by
  intro hc
  rcases List.mem_append.1 hc with hc | hc
  · exact h hc
  · simp only [List.mem_cons] at hc
    rcases hc with hc | hc | hc
    · exact absurd hc (by decide)
    · exact absurd hc (by decide)
    · exact utoa_not_mem age _ (by decide) hc

/-- The text made of the rows `rows`, as `fprintf` writes them one after the other. -/
theorem rawLines_rows (rows : List (List Char × Nat)) (h : ∀ r ∈ rows, '\n' ∉ r.1) :
    rawLines (rows.map (fun r => formatRow r.1 r.2)).flatten
      = rows.map (fun r => formatRow r.1 r.2) := by
  induction rows with
  | nil => simp [rawLines]
  | cons r rs ih =>
    have h1 := newline_not_mem_row r.1 r.2 (h r (by simp))
    have h2 := ih (fun x hx => h x (by simp [hx]))
    rw [List.map_cons, List.flatten_cons, formatRow_eq, List.append_assoc, List.singleton_append,
      rawLines_line _ _ h1, h2]

theorem stripEol_row (b : List Char) (c : Char) (hc : isdigit c = true) :
    stripEol (b ++ [c] ++ ['\n']) = b ++ [c] := by
  have f := isdigit_facts c hc
  unfold stripEol
  simp [f.2.2.2.2.2.2.2.2.1]

/-- The parsed text of a written row. -/
theorem lineText_row (name : List Char) (age : Nat) (h : NUL ∉ name) :
    lineText (formatRow name age) = name ++ ',' :: ' ' :: utoa age := by
  obtain ⟨h1, h2, _⟩ := utoa_spec age
  have hn : NUL ∉ formatRow name age := by
    rw [formatRow_eq]
    intro hc
    simp only [List.mem_append, List.mem_cons, List.mem_singleton] at hc
    rcases hc with (hc | hc | hc | hc) | hc
    · exact h hc
    · exact absurd hc (by decide)
    · exact absurd hc (by decide)
    · exact utoa_not_mem age _ (by decide) hc
    · rcases hc with hc | hc
      · exact absurd hc (by decide)
      · simp at hc
  unfold lineText
  rw [cstr_of_not_mem _ hn, formatRow_eq]
  obtain ⟨d, c, e⟩ : ∃ d c, utoa age = d ++ [c] :=
    ⟨(utoa age).dropLast, (utoa age).getLast h1, (List.dropLast_append_getLast h1).symm⟩
  have hc : isdigit c = true := h2 c (by simp [e])
  rw [e]
  have := stripEol_row (name ++ ',' :: ' ' :: d) c hc
  simpa using this

theorem nameField_append_comma (nm r : List Char) (h : ',' ∉ nm) :
    nameField (nm ++ ',' :: r) = nm := by
  unfold nameField
  rw [List.takeWhile_append_of_pos (by
    intro a ha
    have : a ≠ ',' := fun e => h (e ▸ ha)
    simpa using this)]
  simp

theorem ageField_append_comma (nm r : List Char) (h : ',' ∉ nm) :
    ageField (nm ++ ',' :: r) = r := by
  unfold ageField
  rw [List.dropWhile_append_of_pos (by
    intro a ha
    have : a ≠ ',' := fun e => h (e ▸ ha)
    simpa using this)]
  simp

theorem ageText_row (name : List Char) (age : Nat) (h : ',' ∉ name) :
    ageText (name ++ ',' :: ' ' :: utoa age) = utoa age := by
  unfold ageText
  rw [ageField_append_comma _ _ h]
  obtain ⟨h1, h2, _⟩ := utoa_spec age
  obtain ⟨c, t, e⟩ := List.exists_cons_of_ne_nil h1
  have hc := (isdigit_facts c (h2 c (by simp [e]))).2.2.1
  have hs : isAgeSkip ' ' = true := by decide
  rw [e, List.dropWhile_cons_of_pos hs, List.dropWhile_cons_of_neg (by simp [hc])]

/-! ## Rows -/

theorem blank_facts (c : Char) (h : isBlank c = true) :
    isspace c = true ∧ c ≠ ',' ∧ c ≠ NUL ∧ c ≠ '\n' ∧ c ≠ '/' ∧ c ≠ '#' ∧ isdigit c = false := by
  rw [isBlank_iff] at h
  rcases h with h | h <;> subst h <;> decide

theorem sscanf_u_skip (w s : List Char) (hw : ∀ c ∈ w, isspace c = true) :
    sscanf_u (w ++ s) = sscanf_u s := by
  unfold sscanf_u
  rw [List.dropWhile_append_of_pos hw]

theorem rdropWhile_blank_append (nm trail : List Char) (ht : ∀ c ∈ trail, isBlank c = true)
    (hl : ∀ c, nm.getLast? = some c → isBlank c = false) :
    (nm ++ trail).rdropWhile isBlank = nm := by
  induction trail using List.reverseRecOn with
  | nil =>
    rw [List.append_nil, List.rdropWhile_eq_self_iff]
    intro hne
    have := hl _ (List.getLast?_eq_getLast _ hne)
    simp [this]
  | append_singleton t c ih =>
    rw [← List.append_assoc, List.rdropWhile_concat_pos _ _ _ (ht c (by simp))]
    exact ih (fun x hx => ht x (by simp [hx]))

theorem dropWhile_ageSkip_digits (ws ds : List Char) (hws : ∀ c ∈ ws, isBlank c = true)
    (hne : ds ≠ []) (hds : ∀ c ∈ ds, isdigit c = true) :
    ∃ w, (ws ++ ds).dropWhile isAgeSkip = w ++ ds ∧ ∀ c ∈ w, isspace c = true := by
  induction ws with
  | nil =>
    refine ⟨[], ?_, by simp⟩
    obtain ⟨c, t, rfl⟩ := List.exists_cons_of_ne_nil hne
    have := (isdigit_facts c (hds c (by simp))).2.2.1
    simp [List.dropWhile_cons, this]
  | cons x t ih =>
    by_cases hx : isAgeSkip x = true
    · rw [List.cons_append, List.dropWhile_cons_of_pos hx]
      exact ih (fun c hc => hws c (by simp [hc]))
    · rw [List.cons_append, List.dropWhile_cons_of_neg hx]
      refine ⟨x :: t, rfl, ?_⟩
      intro c hc
      exact (blank_facts c (hws c hc)).1

/-- A row `name,age` with blanks around the name and in front of the age, ended
by a newline: the name and the age are found, and the age is compared. -/
theorem processLine_row (mx a : Nat) (lead nm trail ws : List Char)
    (hlead : ∀ c ∈ lead, isBlank c = true) (htrail : ∀ c ∈ trail, isBlank c = true)
    (hws : ∀ c ∈ ws, isBlank c = true) (hne : nm ≠ []) (hg : GoodName nm)
    (ha : a ≤ UINT_MAX) :
    processLine mx (lead ++ nm ++ trail ++ ',' :: (ws ++ utoa a) ++ ['\n'])
      = if a ≤ mx then Outcome.kept nm a else Outcome.tooOld := by
  obtain ⟨g1, _, g3, g4, g5, g6, g7⟩ := hg
  rw [option_any_false_iff] at g4 g5
  obtain ⟨u1, u2, _⟩ := utoa_spec a
  have hA : NUL ∉ ws ++ utoa a := by
    intro h
    rcases List.mem_append.1 h with h | h
    · exact (blank_facts _ (hws _ h)).2.2.1 rfl
    · exact utoa_not_mem a _ (by decide) h
  have hN : NUL ∉ nm ++ trail := by
    intro h
    rcases List.mem_append.1 h with h | h
    · exact g3 h
    · exact (blank_facts _ (htrail _ h)).2.2.1 rfl
  have hC : ',' ∉ nm ++ trail := by
    intro h
    rcases List.mem_append.1 h with h | h
    · exact g1 h
    · exact (blank_facts _ (htrail _ h)).2.1 rfl
  have hT : NUL ∉ lead ++ nm ++ trail ++ ',' :: (ws ++ utoa a) ++ ['\n'] := by
    intro h
    simp only [List.mem_append, List.mem_cons, List.mem_singleton] at h
    rcases h with (((h | h) | h) | h | h | h) | h
    · exact (blank_facts _ (hlead _ h)).2.2.1 rfl
    · exact g3 h
    · exact (blank_facts _ (htrail _ h)).2.2.1 rfl
    · exact absurd h (by decide)
    · exact (blank_facts _ (hws _ h)).2.2.1 rfl
    · exact utoa_not_mem a _ (by decide) h
    · rcases h with h | h
      · exact absurd h (by decide)
      · simp at h
  have hpb : stripEol (cstr (lead ++ nm ++ trail ++ ',' :: (ws ++ utoa a) ++ ['\n']))
      = lead ++ (nm ++ trail) ++ ',' :: (ws ++ utoa a) := by
    rw [cstr_of_not_mem _ hT]
    obtain ⟨d, c, e⟩ : ∃ d c, utoa a = d ++ [c] :=
      ⟨(utoa a).dropLast, (utoa a).getLast u1, (List.dropLast_append_getLast u1).symm⟩
    have hc : isdigit c = true := u2 c (by simp [e])
    rw [e]
    have := stripEol_row (lead ++ nm ++ trail ++ ',' :: (ws ++ d)) c hc
    simpa using this
  have hhead : ∀ c, (nm ++ trail).head? = some c → isBlank c = false := by
    intro c hc
    obtain ⟨x, t, rfl⟩ := List.exists_cons_of_ne_nil hne
    exact g4 c (by simpa using hc)
  rw [processLine_fields mx _ lead (nm ++ trail) (ws ++ utoa a) hpb hlead hhead hC hN hA]
  unfold fieldsOutcome
  have k1 : (nm ++ trail).head? ≠ some '#' := by
    obtain ⟨x, t, rfl⟩ := List.exists_cons_of_ne_nil hne
    simpa using g6
  have k2 : (nm ++ trail).take 2 ≠ ['/', '/'] := by
    intro h
    match nm, hne, g7, h with
    | [x], _, _, h =>
      cases trail with
      | nil => simp at h
      | cons y t =>
        simp at h
        exact (blank_facts y (htrail y (by simp))).2.2.2.2.1 h.2
    | x :: y :: u, _, g7, h => exact g7 (by simpa using h)
  have k3 : ¬ (nm ++ trail = [] ∧ lead.getLast? ≠ some ' ') := by
    intro h; exact hne (List.append_eq_nil.1 h.1).1
  obtain ⟨w, hw, hwsp⟩ := dropWhile_ageSkip_digits ws (utoa a) hws u1 u2
  have k4 : (ws ++ utoa a).dropWhile isAgeSkip ≠ [] := by
    rw [hw]; intro h; exact u1 (List.append_eq_nil.1 h).2
  have k5 : sscanf_u ((ws ++ utoa a).dropWhile isAgeSkip) = some a := by
    rw [hw, sscanf_u_skip w _ hwsp]
    simpa using sscanf_u_utoa a [] ha (by simp)
  rw [if_neg k1, if_neg k2, if_neg k3, if_neg k4, k5, rdropWhile_blank_append nm trail htrail g5]

/-- A written row, read again, is accepted when its name is not empty. -/
theorem processLine_formatRow (mx a : Nat) (nm : List Char) (hne : nm ≠ [])
    (hg : GoodRow mx nm a) : processLine mx (formatRow nm a) = Outcome.kept nm a := by
  have := processLine_row mx a [] nm [] [' '] (by simp) (by simp) (by simp [isBlank]) hne hg.1
    hg.2.2
  rw [if_pos hg.2.1] at this
  rw [← this]
  simp [formatRow]

/-! ## Reading a row -/

theorem rowLine_read (lead nm trail ws rest : List Char) (a : Nat)
    (hlead : ∀ c ∈ lead, isBlank c = true) (htrail : ∀ c ∈ trail, isBlank c = true)
    (hws : ∀ c ∈ ws, isBlank c = true) (hg : GoodName nm)
    (hlen : (rowLine lead nm trail ws a).length ≤ LINE_MAX - 1) :
    fgets LINE_MAX (rowLine lead nm trail ws a ++ rest) = some (rowLine lead nm trail ws a, rest) := by
  have hnl : '\n' ∉ lead ++ nm ++ trail ++ ',' :: (ws ++ utoa a) := by
    intro h
    simp only [List.mem_append, List.mem_cons] at h
    rcases h with ((h | h) | h) | h | h | h
    · exact (blank_facts _ (hlead _ h)).2.2.2.1 rfl
    · exact hg.2.1 h
    · exact (blank_facts _ (htrail _ h)).2.2.2.1 rfl
    · exact absurd h (by decide)
    · exact (blank_facts _ (hws _ h)).2.2.2.1 rfl
    · exact utoa_not_mem a _ (by decide) h
  have := fgets_line _ rest hnl (by simpa [rowLine] using hlen)
  simpa [rowLine] using this

/-! ## The lines of a text and the age field -/

theorem rawLines_eq_nil (s : List Char) (h : rawLines s = []) : s = [] := by
  cases s with
  | nil => rfl
  | cons c t =>
    unfold rawLines at h
    by_cases hc : c = '\n'
    · simp [hc] at h
    · rw [if_neg hc] at h
      cases hr : rawLines t with
      | nil => rw [hr] at h; simp at h
      | cons l ls => rw [hr] at h; simp at h

/-- When the first line fits the buffer, `fgets` reads exactly that line. -/
theorem fgetsAux_rawLines : ∀ (inp l : List Char) (ls : List (List Char)) (k : Nat),
    rawLines inp = l :: ls → l.length ≤ k →
      (fgetsAux k inp).1 = l ∧ rawLines (fgetsAux k inp).2 = ls := by
  intro inp
  induction inp with
  | nil => intro l ls k h; simp [rawLines] at h
  | cons c t ih =>
    intro l ls k h hk
    unfold rawLines at h
    by_cases hc : c = '\n'
    · rw [if_pos hc] at h
      injection h with h1 h2
      subst h1
      obtain ⟨k, rfl⟩ : ∃ j, k = j + 1 := ⟨k - 1, by simp at hk; omega⟩
      simp [fgetsAux, hc, h2]
    · rw [if_neg hc] at h
      cases hr : rawLines t with
      | nil =>
        rw [hr] at h
        injection h with h1 h2
        subst h1 h2
        have ht := rawLines_eq_nil t hr
        subst ht
        obtain ⟨k, rfl⟩ : ∃ j, k = j + 1 := ⟨k - 1, by simp at hk; omega⟩
        simp [fgetsAux, hc, fgetsAux_nil, rawLines]
      | cons l' ls' =>
        rw [hr] at h
        injection h with h1 h2
        subst h1 h2
        obtain ⟨k, rfl⟩ : ∃ j, k = j + 1 := ⟨k - 1, by simp at hk; omega⟩
        obtain ⟨e1, e2⟩ := ih l' ls' k hr (by simpa using hk)
        simp [fgetsAux, hc, e1, e2]

theorem fgets_rawLines (inp l : List Char) (ls : List (List Char))
    (h : rawLines inp = l :: ls) (hl : l.length ≤ LINE_MAX - 1) :
    ∃ rest, fgets LINE_MAX inp = some (l, rest) ∧ rawLines rest = ls := by
  obtain ⟨e1, e2⟩ := fgetsAux_rawLines inp l ls (LINE_MAX - 1) h hl
  cases inp with
  | nil => simp [rawLines] at h
  | cons c t =>
    refine ⟨(fgetsAux (LINE_MAX - 1) (c :: t)).2, ?_, e2⟩
    simp only [fgets]
    rw [← e1]

theorem comma_mem_of_ageField (pb : List Char) (h : ageField pb ≠ []) : ',' ∈ pb := by
  unfold ageField at h
  induction pb with
  | nil => simp at h
  | cons x t ih =>
    by_cases hx : x = ','
    · simp [hx]
    · have e : List.dropWhile (fun c => c != ',') (x :: t)
          = List.dropWhile (fun c => c != ',') t := by
        simp [List.dropWhile_cons, hx]
      rw [e] at h
      exact List.mem_cons_of_mem _ (ih h)

theorem comma_mem_of_ageText (pb : List Char) (h : ageText pb ≠ []) : ',' ∈ pb := by
  apply comma_mem_of_ageField
  intro e
  apply h
  unfold ageText
  rw [e]
  rfl

/-- A line with a comma that is neither a comment nor outside the buffer is
decided by its age field. -/
theorem processLine_age (mx : Nat) (line : List Char)
    (hc : ',' ∈ lineText line)
    (h1 : processLine mx line ≠ Outcome.comment)
    (h2 : processLine mx line ≠ Outcome.outOfBounds) :
    processLine mx line =
      if ageText (lineText line) = [] then Outcome.ageMissing
      else
        match sscanf_u (ageText (lineText line)) with
        | none => Outcome.badAge
        | some age =>
          if age ≤ mx then Outcome.kept (trimBlanks (nameField (lineText line))) age
          else Outcome.tooOld := by
  rw [processLine_eq_classify] at h1 h2 ⊢
  unfold classify at h1 h2 ⊢
  unfold lineText at hc ⊢
  rw [if_pos hc] at h1 h2 ⊢
  unfold fieldsOutcome at h1 h2 ⊢
  by_cases k1 : ((nameField (stripEol (cstr line))).dropWhile isBlank).head? = some '#'
  · rw [if_pos k1] at h1; exact absurd rfl h1
  rw [if_neg k1] at h1 h2 ⊢
  by_cases k2 : ((nameField (stripEol (cstr line))).dropWhile isBlank).take 2 = ['/', '/']
  · rw [if_pos k2] at h1; exact absurd rfl h1
  rw [if_neg k2] at h2 ⊢
  by_cases k3 : (nameField (stripEol (cstr line))).dropWhile isBlank = [] ∧
      ((nameField (stripEol (cstr line))).takeWhile isBlank).getLast? ≠ some ' '
  · rw [if_pos k3] at h2; exact absurd rfl h2
  rw [if_neg k3]
  rfl

/-! ## Where the name trim leaves the buffer -/

/-- The lines at which the name trim reads `parsebuffer[-1]`: after the leading
spaces and tabs comes the comma, and there is no leading blank or the last one
is a tab. -/
theorem processLine_outOfBounds_iff (mx : Nat) (line : List Char) :
    processLine mx line = Outcome.outOfBounds ↔
      ∃ lead A, lineText line = lead ++ ',' :: A ∧ (∀ c ∈ lead, isBlank c = true) ∧
        lead.getLast? ≠ some ' ' := by
  constructor
  · intro h
    rw [processLine_eq_classify] at h
    unfold classify at h
    by_cases hc : ',' ∈ stripEol (cstr line)
    · rw [if_pos hc] at h
      unfold fieldsOutcome at h
      by_cases k1 : ((nameField (stripEol (cstr line))).dropWhile isBlank).head? = some '#'
      · rw [if_pos k1] at h; exact Outcome.noConfusion h
      rw [if_neg k1] at h
      by_cases k2 : ((nameField (stripEol (cstr line))).dropWhile isBlank).take 2 = ['/', '/']
      · rw [if_pos k2] at h; exact Outcome.noConfusion h
      rw [if_neg k2] at h
      by_cases k3 : (nameField (stripEol (cstr line))).dropWhile isBlank = [] ∧
          ((nameField (stripEol (cstr line))).takeWhile isBlank).getLast? ≠ some ' '
      · refine ⟨(nameField (stripEol (cstr line))).takeWhile isBlank,
          ageField (stripEol (cstr line)), ?_, fun c hc => List.mem_takeWhile_imp hc, k3.2⟩
        have hs := fields_split _ hc
        have hF := (List.takeWhile_append_dropWhile isBlank (nameField (stripEol (cstr line)))).symm
        rw [k3.1, List.append_nil] at hF
        rw [← hF]
        exact hs
      · rw [if_neg k3] at h
        by_cases k4 : (ageField (stripEol (cstr line))).dropWhile isAgeSkip = []
        · rw [if_pos k4] at h; exact Outcome.noConfusion h
        rw [if_neg k4] at h
        cases hv : sscanf_u ((ageField (stripEol (cstr line))).dropWhile isAgeSkip) with
        | none => rw [hv] at h; exact Outcome.noConfusion h
        | some v =>
          rw [hv] at h
          simp only at h
          by_cases k5 : v ≤ mx
          · rw [if_pos k5] at h; exact Outcome.noConfusion h
          · rw [if_neg k5] at h; exact Outcome.noConfusion h
    · rw [if_neg hc] at h
      split at h
      · exact Outcome.noConfusion h
      split at h
      · exact Outcome.noConfusion h
      split at h
      · exact Outcome.noConfusion h
      · exact Outcome.noConfusion h
  · rintro ⟨lead, A, hpb, hlead, hlast⟩
    have hnul := nul_not_mem_content line
    unfold lineText at hpb
    have hA : NUL ∉ A := fun h => hnul (by rw [hpb]; simp [h])
    rw [processLine_fields mx line lead [] A (by simpa using hpb) hlead (by simp) (by simp)
      (by simp) hA]
    unfold fieldsOutcome
    simp [hlast]

/-! ## The loop over the lines read -/

/-- More calls than bytes read the same lines. -/
theorem readLinesAux_fuel : ∀ (f1 f2 : Nat) (inp : List Char),
    inp.length ≤ f1 → inp.length ≤ f2 → readLinesAux f1 inp = readLinesAux f2 inp := by
  intro f1
  induction f1 with
  | zero =>
    intro f2 inp h1 _
    have : inp = [] := List.length_eq_zero.1 (by omega)
    subst this
    cases f2 <;> simp [readLinesAux, fgets]
  | succ f1 ih =>
    intro f2 inp h1 h2
    cases inp with
    | nil => cases f2 <;> simp [readLinesAux, fgets]
    | cons c t =>
      obtain ⟨f2, rfl⟩ : ∃ j, f2 = j + 1 := ⟨f2 - 1, by simp at h2; omega⟩
      unfold readLinesAux
      cases hf : fgets LINE_MAX (c :: t) with
      | none => rfl
      | some lr =>
        obtain ⟨line, rest⟩ := lr
        obtain ⟨⟨hne, _, _⟩, happ⟩ := fgets_some _ _ _ hf
        have hlen : rest.length < (c :: t).length := by
          rw [happ, List.length_append]
          have := List.length_pos.2 hne
          omega
        simp only
        rw [ih f2 rest (by omega) (by omega)]

theorem readLines_nil : readLines [] = [] := rfl

/-- The lines read from a stream: the first result of `fgets`, then the lines
read from the rest. -/
theorem readLines_of_fgets (inp line rest : List Char)
    (h : fgets LINE_MAX inp = some (line, rest)) :
    readLines inp = line :: readLines rest := by
  obtain ⟨⟨hne, _, _⟩, happ⟩ := fgets_some _ _ _ h
  have hlen : rest.length < inp.length := by
    rw [happ, List.length_append]
    have := List.length_pos.2 hne
    omega
  unfold readLines
  obtain ⟨n, hn⟩ : ∃ n, inp.length = n + 1 := ⟨inp.length - 1, by omega⟩
  rw [hn, readLinesAux, h]
  simp only
  rw [readLinesAux_fuel n rest.length rest (by omega) (Nat.le_refl _)]

/-- The loop is the loop body applied to the lines read. -/
theorem filterLoop_eq_runLines (mx : Nat) : ∀ (fuel : Nat) (inp : List Char) (st : RunState),
    inp.length ≤ fuel → filterLoop mx fuel inp st = runLines mx (readLines inp) st := by
  intro fuel
  induction fuel with
  | zero =>
    intro inp st h
    have : inp = [] := List.length_eq_zero.1 (by omega)
    subst this
    rfl
  | succ fuel ih =>
    intro inp st h
    unfold filterLoop
    cases hf : fgets LINE_MAX inp with
    | none =>
      have := (fgets_eq_none inp).1 hf
      subst this
      rfl
    | some lr =>
      obtain ⟨line, rest⟩ := lr
      obtain ⟨⟨hne, _, _⟩, happ⟩ := fgets_some _ _ _ hf
      have hlen : rest.length ≤ fuel := by
        have := List.length_pos.2 hne
        rw [happ, List.length_append] at h
        omega
      rw [readLines_of_fgets inp line rest hf]
      simp only [runLines]
      rw [ih rest _ hlen]

/-- The result of `filter_stream` in terms of the lines read. -/
theorem filter_stream_eq (mx : Nat) (inp : List Char) :
    filter_stream mx inp =
      { runLines mx (readLines inp) RunState.init with
        log := (runLines mx (readLines inp) RunState.init).log ++
          [Diag.done (runLines mx (readLines inp) RunState.init).kept
            (runLines mx (readLines inp) RunState.init).skipped] } := by
  unfold filter_stream
  rw [filterLoop_eq_runLines mx _ inp _ (Nat.le_refl _)]

/-- Every line read is a chunk. -/
theorem readLines_isChunk (inp : List Char) : ∀ l ∈ readLines inp, IsChunk l := by
  generalize hn : inp.length = n
  induction n using Nat.strong_induction_on generalizing inp with
  | _ n ih =>
    intro l hl
    cases hf : fgets LINE_MAX inp with
    | none =>
      have := (fgets_eq_none inp).1 hf
      subst this
      simp [readLines_nil] at hl
    | some lr =>
      obtain ⟨line, rest⟩ := lr
      obtain ⟨hch, happ⟩ := fgets_some _ _ _ hf
      rw [readLines_of_fgets inp line rest hf] at hl
      rcases List.mem_cons.1 hl with h | h
      · rw [h]; exact hch
      · have hlen : rest.length < n := by
          rw [← hn, happ, List.length_append]
          have := List.length_pos.2 hch.1
          omega
        exact ih rest.length hlen rest rfl l h

/-- When every line fits the buffer, the lines read are the lines of the text. -/
theorem readLines_eq_rawLines (inp : List Char)
    (hfit : ∀ l ∈ rawLines inp, l.length ≤ LINE_MAX - 1) : readLines inp = rawLines inp := by
  generalize hn : inp.length = n
  induction n using Nat.strong_induction_on generalizing inp with
  | _ n ih =>
    cases hr : rawLines inp with
    | nil =>
      have := rawLines_eq_nil inp hr
      subst this
      rfl
    | cons l ls =>
      obtain ⟨rest, hg, hrest⟩ := fgets_rawLines inp l ls hr (hfit l (by rw [hr]; simp))
      obtain ⟨hch, happ⟩ := fgets_some _ _ _ hg
      have hlen : rest.length < n := by
        rw [← hn, happ, List.length_append]
        have := List.length_pos.2 hch.1
        omega
      rw [readLines_of_fgets inp l rest hg,
        ih rest.length hlen rest (fun x hx => hfit x (by rw [hr, ← hrest]; simp [hx])) rfl, hrest]

/-! ## Counting the rows written -/

theorem count_utoa (a : Nat) (c : Char) (hc : isdigit c = false) : (utoa a).count c = 0 :=
  List.count_eq_zero.2 (utoa_not_mem a c hc)

theorem count_formatRow (name : List Char) (age : Nat) (c : Char) (hc : isdigit c = false)
    (hn : c ∉ name) :
    (formatRow name age).count c = [',', ' ', '\n'].count c := by
  unfold formatRow
  simp only [List.count_append, List.count_eq_zero.2 hn, count_utoa age c hc]
  simp [List.count_cons]
  omega

theorem count_rows (rows : List (List Char × Nat)) (h : ∀ r ∈ rows, '\n' ∉ r.1) :
    (rows.map (fun r => formatRow r.1 r.2)).flatten.count '\n' = rows.length := by
  induction rows with
  | nil => rfl
  | cons r rs ih =>
    rw [List.map_cons, List.flatten_cons, List.count_append,
      count_formatRow r.1 r.2 '\n' (by decide) (h r (by simp)),
      ih (fun x hx => h x (by simp [hx]))]
    simp [List.count_cons]
    omega

/-! ## Empty lines, comments, lines without comma or age -/

theorem processLine_body (mx : Nat) (line : List Char) :
    ((lineText line).dropWhile isBlank = [] → processLine mx line = Outcome.emptyLine) ∧
    (((lineText line).dropWhile isBlank).head? = some '#' ∨
        ((lineText line).dropWhile isBlank).take 2 = ['/', '/'] →
      processLine mx line = Outcome.comment) := by
  have hnul := nul_not_mem_content line
  unfold lineText
  have hb : NUL ∉ (stripEol (cstr line)).dropWhile isBlank := not_mem_dropWhile _ _ _ hnul
  unfold processLine
  simp only [drop_takeWhile_length]
  generalize (stripEol (cstr line)).dropWhile isBlank = body at hb
  constructor
  · intro h
    subst h
    simp
  · intro h
    match body, hb, h with
    | [], _, h => simp at h
    | [x], hb, h =>
      have hx : x ≠ NUL := fun e => hb (by simp [e])
      simp at h
      subst h
      simp [NUL]
    | x :: y :: u, hb, h =>
      have hx : x ≠ NUL := fun e => hb (by simp [e])
      rcases h with h | h
      · simp at h; subst h; simp [NUL]
      · simp at h
        obtain ⟨h1, h2⟩ := h
        subst h1 h2
        simp [NUL]

/-! ## Messages and long lines -/

theorem fgetsAux_full (a b : List Char) (h : '\n' ∉ a) :
    fgetsAux a.length (a ++ b) = (a, b) := by
  induction a with
  | nil => rfl
  | cons x t ih =>
    have hx : x ≠ '\n' := fun e => h (by simp [e])
    have ht : '\n' ∉ t := fun e => h (by simp [e])
    rw [List.length_cons, List.cons_append]
    unfold fgetsAux
    rw [if_neg hx, ih ht]

/-- A full buffer: `fgets` stops after `LINE_MAX - 1` bytes. -/
theorem fgets_full (a b : List Char) (ha : a.length = LINE_MAX - 1) (h : '\n' ∉ a) :
    fgets LINE_MAX (a ++ b) = some (a, b) := by
  have := fgetsAux_full a b h
  rw [ha] at this
  cases a with
  | nil => simp [LINE_MAX] at ha
  | cons x t => simpa [fgets] using this

/-! ## A carriage return at the end of a line -/

theorem takeWhile_append_last (p : Char → Bool) (r : List Char) (x : Char) (hx : p x = false) :
    (r ++ [x]).takeWhile p = r.takeWhile p := by
  induction r with
  | nil => simp [List.takeWhile_cons, hx]
  | cons a t ih =>
    by_cases ha : p a = true
    · simp [List.takeWhile_cons, ha, ih]
    · simp [List.takeWhile_cons, ha]

theorem dropWhile_append_last (p : Char → Bool) (r : List Char) (x : Char) (hx : p x = true) :
    (r ++ [x]).dropWhile p = if r.dropWhile p = [] then [] else r.dropWhile p ++ [x] := by
  induction r with
  | nil => simp [List.dropWhile_cons, hx]
  | cons a t ih =>
    by_cases ha : p a = true
    · simp only [List.cons_append, List.dropWhile_cons_of_pos ha, ih]
    · simp [List.dropWhile_cons, ha]

theorem scanSign_append (c : Char) (t w : List Char) :
    scanSign (c :: t ++ w) = ((scanSign (c :: t)).1, (scanSign (c :: t)).2 ++ w) := by
  unfold scanSign
  split
  · rename_i h
    simp only [List.cons_append, List.cons.injEq] at h
    obtain ⟨h1, h2⟩ := h
    subst h1 h2
    rfl
  · rename_i h
    simp only [List.cons_append, List.cons.injEq] at h
    obtain ⟨h1, h2⟩ := h
    subst h1 h2
    rfl
  · rename_i h1 h2
    split
    · rename_i h
      simp only [List.cons.injEq] at h
      exact absurd (by rw [h.1]; rfl) (h1 (t ++ w))
    · rename_i h
      simp only [List.cons.injEq] at h
      exact absurd (by rw [h.1]; rfl) (h2 (t ++ w))
    · rfl

/-- A carriage return at the end of the field does not change what `%u` reads. -/
theorem sscanf_u_append_cr (a : List Char) : sscanf_u (a ++ ['\r']) = sscanf_u a := by
  unfold sscanf_u
  rw [dropWhile_append_last isspace a '\r' (by decide)]
  cases hs : a.dropWhile isspace with
  | nil => simp
  | cons c t =>
    simp only [List.cons_ne_nil, if_false]
    rw [scanSign_append c t ['\r']]
    simp only [takeWhile_append_last isdigit _ '\r' (by decide)]

/-! ## Lines ended by a carriage return and a newline -/

theorem crlf_append (a b : List Char) : crlf (a ++ b) = crlf a ++ crlf b := by
  simp [crlf, List.flatMap_append]

theorem crlf_cons (c : Char) (s : List Char) :
    crlf (c :: s) = (if c = '\n' then ['\r', '\n'] else [c]) ++ crlf s := by
  simp [crlf, List.flatMap_cons]

theorem crlf_of_not_mem (a : List Char) (h : '\n' ∉ a) : crlf a = a := by
  induction a with
  | nil => rfl
  | cons x t ih =>
    have hx : x ≠ '\n' := fun e => h (by simp [e])
    have ht : '\n' ∉ t := fun e => h (by simp [e])
    rw [crlf_cons, if_neg hx, ih ht]
    rfl

theorem cstr_append_of_mem (u x : List Char) (h : NUL ∈ u) : cstr (u ++ x) = cstr u := by
  induction u with
  | nil => simp at h
  | cons a t ih =>
    by_cases ha : a = NUL
    · subst ha; simp [cstr]
    · have ht : NUL ∈ t := by
        rcases List.mem_cons.1 h with e | e
        · exact absurd e.symm ha
        · exact e
      have := ih ht
      simp only [cstr] at this ⊢
      simp [List.takeWhile_cons, ha, this]

theorem stripEol_lf (u : List Char) :
    stripEol (u ++ ['\n']) = if u.getLast? = some '\r' then u.dropLast else u := by
  unfold stripEol
  simp [List.getLast?_concat]

theorem stripEol_crlf (u : List Char) : stripEol (u ++ ['\r', '\n']) = u := by
  have e : u ++ ['\r', '\n'] = (u ++ ['\r']) ++ ['\n'] := by simp
  rw [e]
  unfold stripEol
  simp [List.getLast?_concat]

/-! ## The lines of a text with carriage returns -/

theorem rawLines_crlf (inp : List Char) : rawLines (crlf inp) = (rawLines inp).map crlf := by
  induction inp with
  | nil => rfl
  | cons c s ih =>
    rw [crlf_cons]
    by_cases hc : c = '\n'
    · subst hc
      have hr : ('\r' : Char) ≠ '\n' := by decide
      simp only [if_true, List.cons_append, List.nil_append]
      rw [rawLines, if_neg hr, rawLines, if_pos rfl, ih]
      simp only [rawLines, if_true, List.map_cons]
      have : crlf ['\n'] = ['\r', '\n'] := by decide
      rw [this]
    · simp only [if_neg hc, List.cons_append, List.nil_append]
      rw [rawLines, if_neg hc, ih]
      conv => rhs; rw [rawLines, if_neg hc]
      cases hr : rawLines s with
      | nil =>
        simp only [List.map_nil, List.map_cons]
        rw [crlf_cons, if_neg hc]
        rfl
      | cons l ls =>
        simp only [List.map_cons]
        rw [crlf_cons, if_neg hc]
        rfl

theorem filter_not_newline (u : List Char) (h : '\n' ∉ u) :
    u.filter (fun c => c != '\n') = u := by
  rw [List.filter_eq_self]
  intro a ha
  have : a ≠ '\n' := fun e => h (e ▸ ha)
  simpa using this

/-- A line with at most 97 bytes before its newline fits the buffer, also with
`\r\n` for `\n`. -/
theorem crlf_line_fits (l : List Char) (h : '\n' ∉ l.dropLast)
    (hlen : (l.filter (fun c => c != '\n')).length ≤ 97) :
    l.length ≤ LINE_MAX - 1 ∧ (crlf l).length ≤ LINE_MAX - 1 := by
  rcases List.eq_nil_or_concat l with e | ⟨u, x, e⟩
  · subst e; decide
  · subst e
    simp only [List.concat_eq_append] at h hlen ⊢
    rw [List.dropLast_concat] at h
    by_cases hx : x = '\n'
    · subst hx
      rw [List.filter_append, filter_not_newline u h] at hlen
      simp at hlen
      rw [crlf_append, crlf_of_not_mem u h]
      have : crlf ['\n'] = ['\r', '\n'] := by decide
      rw [this]
      simp [LINE_MAX]
      omega
    · have hn : '\n' ∉ u ++ [x] := by
        intro hc
        rcases List.mem_append.1 hc with hc | hc
        · exact h hc
        · simp at hc; exact hx hc.symm
      rw [filter_not_newline _ hn] at hlen
      rw [crlf_of_not_mem _ hn]
      simp [LINE_MAX] at hlen ⊢
      omega

/-- The lines of a text have no newline before their last byte. -/
theorem rawLines_shape (inp : List Char) : ∀ l ∈ rawLines inp, '\n' ∉ l.dropLast := by
  induction inp with
  | nil => intro l hl; simp [rawLines] at hl
  | cons c s ih =>
    intro l hl
    rw [rawLines] at hl
    by_cases hc : c = '\n'
    · rw [if_pos hc] at hl
      rcases List.mem_cons.1 hl with e | e
      · subst e; simp
      · exact ih l e
    · rw [if_neg hc] at hl
      cases hr : rawLines s with
      | nil =>
        rw [hr] at hl
        simp at hl
        subst hl
        simp
      | cons l' ls =>
        rw [hr] at hl
        rcases List.mem_cons.1 hl with e | e
        · subst e
          have h' := ih l' (by rw [hr]; simp)
          cases l' with
          | nil => simp
          | cons y t =>
            rw [List.dropLast_cons₂]
            intro hm
            rcases List.mem_cons.1 hm with e | e
            · exact hc e.symm
            · exact h' e
        · exact ih l (by rw [hr]; simp [e])

/-! ## Concatenating inputs -/

theorem fgetsAux_append_of_newline : ∀ (k : Nat) (x y : List Char),
    x.getLast? = some '\n' →
      fgetsAux k (x ++ y) = ((fgetsAux k x).1, (fgetsAux k x).2 ++ y) := by
  intro k
  induction k with
  | zero => intro x y _; rfl
  | succ k ih =>
    intro x y hx
    cases x with
    | nil => simp at hx
    | cons c t =>
      rw [List.cons_append]
      unfold fgetsAux
      by_cases hc : c = '\n'
      · simp [hc]
      · rw [if_neg hc, if_neg hc]
        have ht : t.getLast? = some '\n' := by
          cases t with
          | nil => simp at hx; exact absurd hx hc
          | cons a u => simpa [List.getLast?_cons_cons] using hx
        rw [ih t y ht]

theorem fgets_append_of_newline (x y line rest : List Char) (hx : x.getLast? = some '\n')
    (h : fgets LINE_MAX x = some (line, rest)) :
    fgets LINE_MAX (x ++ y) = some (line, rest ++ y) := by
  cases x with
  | nil => simp at hx
  | cons c t =>
    simp only [fgets, Option.some.injEq] at h
    rw [List.cons_append]
    simp only [fgets]
    rw [← List.cons_append, fgetsAux_append_of_newline _ _ y hx, h]

/-- After a text that ends with a newline the lines of what follows are read
as if it stood alone. -/
theorem readLines_append (x y : List Char) (hx : x = [] ∨ x.getLast? = some '\n') :
    readLines (x ++ y) = readLines x ++ readLines y := by
  generalize hn : x.length = n
  induction n using Nat.strong_induction_on generalizing x with
  | _ n ih =>
    rcases hx with hx | hx
    · subst hx; rfl
    · cases hf : fgets LINE_MAX x with
      | none =>
        have := (fgets_eq_none x).1 hf
        subst this
        simp at hx
      | some lr =>
        obtain ⟨line, rest⟩ := lr
        obtain ⟨hch, happ⟩ := fgets_some _ _ _ hf
        have hlen : rest.length < n := by
          rw [← hn, happ, List.length_append]
          have := List.length_pos.2 hch.1
          omega
        have hrest : rest = [] ∨ rest.getLast? = some '\n' := by
          cases rest with
          | nil => exact Or.inl rfl
          | cons a u =>
            right
            rw [happ, List.getLast?_append] at hx
            simpa using hx
        rw [readLines_of_fgets _ _ _ (fgets_append_of_newline x y line rest hx hf),
          readLines_of_fgets _ _ _ hf, ih rest.length hlen rest hrest rfl]
        rfl

/-! ## The class of a line -/

theorem ageOutcome_cases (mx : Nat) (name A : List Char) :
    ageOutcome mx name A = Outcome.ageMissing ∨ ageOutcome mx name A = Outcome.badAge ∨
      (∃ age, ageOutcome mx name A = Outcome.kept name age ∧ age ≤ mx ∧
        sscanf_u (A.dropWhile isAgeSkip) = some age) ∨
      ageOutcome mx name A = Outcome.tooOld := by
  unfold ageOutcome
  by_cases h : A.dropWhile isAgeSkip = []
  · rw [if_pos h]; exact Or.inl rfl
  · rw [if_neg h]
    cases hs : sscanf_u (A.dropWhile isAgeSkip) with
    | none => exact Or.inr (Or.inl rfl)
    | some age =>
      simp only
      by_cases hle : age ≤ mx
      · rw [if_pos hle]; exact Or.inr (Or.inr (Or.inl ⟨age, rfl, hle, rfl⟩))
      · rw [if_neg hle]; exact Or.inr (Or.inr (Or.inr rfl))

theorem afterStray_fields (mx : Nat) (line lead A : List Char)
    (hpb : stripEol (cstr line) = lead ++ ',' :: A)
    (hlead : ∀ c ∈ lead, isBlank c = true) (hA : NUL ∉ A) :
    afterStray mx line = ageOutcome mx [] A := by
  have f1 : (lead ++ ',' :: A).takeWhile isBlank = lead := by
    rw [List.takeWhile_append_of_pos hlead]
    simp [isBlank]
  have hcl : ',' ∉ lead := fun h => by have := hlead _ h; simp [isBlank] at this
  have f3 : List.indexOf ',' (lead ++ ',' :: A) = lead.length := by
    rw [List.indexOf_append_of_not_mem hcl, List.indexOf_cons_self]
    simp
  have f4 : (lead ++ ',' :: A).set lead.length NUL = lead ++ NUL :: A := set_append_cons _ _ _ _
  have g1 : (lead ++ NUL :: A).drop (lead.length + 1) = A := by
    rw [show lead ++ NUL :: A = (lead ++ [NUL]) ++ A by simp,
      show lead.length + 1 = (lead ++ [NUL]).length by simp, List.drop_left]
  have g2 : (lead ++ NUL :: A).drop lead.length = NUL :: A := by rw [List.drop_left]
  have g3 : cstr (NUL :: A) = [] := by simp [cstr]
  have hAs : NUL ∉ A.dropWhile isAgeSkip := not_mem_dropWhile _ _ _ hA
  unfold afterStray ageOutcome
  simp only [hpb, f1, f3, f4, g1, g2, g3, cstr_of_not_mem A hA, headD_eq_nul_iff _ hAs]

/-- Behind the leading blanks of a line with a comma come the name field
without them, the comma and the age field. -/
theorem dropWhile_blank_fields (pb : List Char) (hc : ',' ∈ pb) :
    pb.dropWhile isBlank = (nameField pb).dropWhile isBlank ++ ',' :: ageField pb := by
  have hs := fields_split pb hc
  conv => lhs; rw [hs]
  rw [List.dropWhile_append]
  by_cases h : ((nameField pb).dropWhile isBlank).isEmpty = true
  · rw [if_pos h]
    have : (nameField pb).dropWhile isBlank = [] := List.isEmpty_iff.1 h
    rw [this]
    simp [isBlank]
  · rw [if_neg h]

/-- The class of a line is the one its fields give. -/
theorem rowOutcome_eq_rowClass (mx : Nat) (line : List Char) :
    rowOutcome mx line = rowClass mx (lineText line) := by
  obtain ⟨b1, b2⟩ := processLine_body mx line
  unfold rowClass
  by_cases h0 : (lineText line).dropWhile isBlank = []
  · rw [if_pos h0]; unfold rowOutcome; rw [b1 h0]
  rw [if_neg h0]
  by_cases h1 : ((lineText line).dropWhile isBlank).head? = some '#'
  · rw [if_pos h1]; unfold rowOutcome; rw [b2 (Or.inl h1)]
  rw [if_neg h1]
  by_cases h2 : ((lineText line).dropWhile isBlank).take 2 = ['/', '/']
  · rw [if_pos h2]; unfold rowOutcome; rw [b2 (Or.inr h2)]
  rw [if_neg h2]
  have hp := processLine_eq_classify mx line
  unfold classify at hp
  by_cases hc : ',' ∈ lineText line
  · rw [if_neg (not_not.2 hc)]
    have hc' : ',' ∈ stripEol (cstr line) := hc
    rw [if_pos hc'] at hp
    have hd := dropWhile_blank_fields _ hc
    have k1 : ((nameField (lineText line)).dropWhile isBlank).head? ≠ some '#' := by
      intro e
      apply h1
      rw [hd]
      exact head_of_initial _ _ (List.prefix_append _ _) _ e
    have k2 : ((nameField (lineText line)).dropWhile isBlank).take 2 ≠ ['/', '/'] := by
      intro e
      apply h2
      rw [hd]
      exact take_two_of_initial _ _ _ _ (List.prefix_append _ _) e
    unfold fieldsOutcome at hp
    unfold lineText at k1 k2
    rw [if_neg k1, if_neg k2] at hp
    by_cases k3 : (nameField (stripEol (cstr line))).dropWhile isBlank = [] ∧
        ((nameField (stripEol (cstr line))).takeWhile isBlank).getLast? ≠ some ' '
    · rw [if_pos k3] at hp
      have hnul := nul_not_mem_content line
      have hs := fields_split _ hc'
      have hF : nameField (stripEol (cstr line))
          = (nameField (stripEol (cstr line))).takeWhile isBlank := by
        conv => lhs; rw [← List.takeWhile_append_dropWhile isBlank (nameField (stripEol (cstr line)))]
        rw [k3.1, List.append_nil]
      have hA : NUL ∉ ageField (stripEol (cstr line)) := fun h => hnul (by rw [hs]; simp [h])
      have ha := afterStray_fields mx line _ _ (by rw [← hF]; exact hs)
        (fun c hc => List.mem_takeWhile_imp hc) hA
      unfold rowOutcome lineText
      rw [hp, k3.1]
      simp only [ha, List.rdropWhile_nil]
    · rw [if_neg k3] at hp
      have hp' : processLine mx line
          = ageOutcome mx (((nameField (stripEol (cstr line))).dropWhile isBlank).rdropWhile isBlank)
              (ageField (stripEol (cstr line))) := hp
      unfold rowOutcome lineText
      rw [hp']
      rcases ageOutcome_cases mx
        (((nameField (stripEol (cstr line))).dropWhile isBlank).rdropWhile isBlank)
        (ageField (stripEol (cstr line))) with h | h | ⟨age, h, _⟩ | h <;> rw [h]
  · rw [if_pos hc]
    have hc' : ',' ∉ stripEol (cstr line) := hc
    unfold lineText at h0 h1 h2
    rw [if_neg hc', if_neg h0, if_neg h1, if_neg h2] at hp
    unfold rowOutcome
    rw [hp]

/-! ## The iteration and the loop in closed form -/

theorem afterStray_cases (mx : Nat) (line : List Char) :
    afterStray mx line = Outcome.ageMissing ∨ afterStray mx line = Outcome.badAge ∨
      (∃ name age, afterStray mx line = Outcome.kept name age) ∨
      afterStray mx line = Outcome.tooOld := by
  unfold afterStray
  simp only
  split
  · exact Or.inl rfl
  · split
    · exact Or.inr (Or.inl rfl)
    · split
      · exact Or.inr (Or.inr (Or.inl ⟨_, _, rfl⟩))
      · exact Or.inr (Or.inr (Or.inr rfl))

/-- One iteration, in terms of the class of its line. -/
theorem step_eq (mx : Nat) (st : RunState) (line : List Char) :
    step mx st line =
      { out := st.out ++ rowText mx line,
        log := st.log ++ lineDiag mx (st.line_number + 1) line,
        kept := st.kept + (if isKept mx line = true then 1 else 0),
        skipped := st.skipped + (if isKept mx line = true then 0 else 1),
        line_number := st.line_number + 1,
        fault := st.fault || decide (processLine mx line = Outcome.outOfBounds) } := by
  unfold step rowText lineDiag isKept rowOutcome
  cases hp : processLine mx line with
  | outOfBounds =>
    rcases afterStray_cases mx line with h | h | ⟨name, age, h⟩ | h <;> rw [h] <;> simp
  | _ => simp

theorem runLines_cons (mx : Nat) (l : List Char) (ls : List (List Char)) (st : RunState) :
    runLines mx (l :: ls) st = runLines mx ls (step mx st l) := rfl

/-- The loop body applied to a list of lines, in terms of their classes. -/
theorem runLines_eq (mx : Nat) : ∀ (ls : List (List Char)) (st : RunState),
    runLines mx ls st =
      { out := st.out ++ (ls.map (rowText mx)).flatten,
        log := st.log ++ diagsFrom mx st.line_number ls,
        kept := st.kept + ls.countP (isKept mx),
        skipped := st.skipped + ls.countP (fun l => !isKept mx l),
        line_number := st.line_number + ls.length,
        fault := st.fault ||
          ls.any (fun l => decide (processLine mx l = Outcome.outOfBounds)) } := by
  intro ls
  induction ls with
  | nil => intro st; simp [runLines, diagsFrom]
  | cons l ls ih =>
    intro st
    rw [runLines_cons, ih, step_eq]
    by_cases hk : isKept mx l = true
    · simp [hk, diagsFrom, List.countP_cons, Nat.add_assoc, Nat.add_comm, Bool.or_assoc]
      omega
    · simp [hk, diagsFrom, List.countP_cons, Nat.add_assoc, Nat.add_comm, Bool.or_assoc]
      omega

/-- The result of `filter_stream` in terms of the classes of the lines read. -/
theorem filter_stream_closed (mx : Nat) (inp : List Char) :
    filter_stream mx inp =
      { out := ((readLines inp).map (rowText mx)).flatten,
        log := diagsFrom mx 0 (readLines inp) ++
          [Diag.done ((readLines inp).countP (isKept mx))
            ((readLines inp).countP (fun l => !isKept mx l))],
        kept := (readLines inp).countP (isKept mx),
        skipped := (readLines inp).countP (fun l => !isKept mx l),
        line_number := (readLines inp).length,
        fault := (readLines inp).any (fun l => decide (processLine mx l = Outcome.outOfBounds)) } := by
  rw [filter_stream_eq, runLines_eq]
  simp [RunState.init]

/-! ## Accepted rows of the loop -/

theorem rowOutcome_of_processLine (mx : Nat) (line : List Char) (o : Outcome)
    (h : processLine mx line = o) (ho : o ≠ Outcome.outOfBounds) : rowOutcome mx line = o := by
  unfold rowOutcome
  rw [h]
  cases o <;> first | rfl | exact absurd rfl ho

/-- What an accepted row is made of, whether or not the name trim stays inside
the buffer. -/
theorem rowOutcome_kept (mx : Nat) (line name : List Char) (age : Nat)
    (h : rowOutcome mx line = Outcome.kept name age) :
    ',' ∈ lineText line ∧ name = trimBlanks (nameField (lineText line)) ∧
      sscanf_u (ageText (lineText line)) = some age ∧ age ≤ mx ∧
      ((nameField (lineText line)).dropWhile isBlank).head? ≠ some '#' ∧
      ((nameField (lineText line)).dropWhile isBlank).take 2 ≠ ['/', '/'] := by
  rw [rowOutcome_eq_rowClass] at h
  unfold rowClass at h
  by_cases h0 : (lineText line).dropWhile isBlank = []
  · rw [if_pos h0] at h; exact Outcome.noConfusion h
  rw [if_neg h0] at h
  by_cases h1 : ((lineText line).dropWhile isBlank).head? = some '#'
  · rw [if_pos h1] at h; exact Outcome.noConfusion h
  rw [if_neg h1] at h
  by_cases h2 : ((lineText line).dropWhile isBlank).take 2 = ['/', '/']
  · rw [if_pos h2] at h; exact Outcome.noConfusion h
  rw [if_neg h2] at h
  by_cases hc : ',' ∈ lineText line
  · rw [if_neg (not_not.2 hc)] at h
    have hd := dropWhile_blank_fields _ hc
    have k1 : ((nameField (lineText line)).dropWhile isBlank).head? ≠ some '#' := by
      intro e
      apply h1
      rw [hd]
      exact head_of_initial _ _ (List.prefix_append _ _) _ e
    have k2 : ((nameField (lineText line)).dropWhile isBlank).take 2 ≠ ['/', '/'] := by
      intro e
      apply h2
      rw [hd]
      exact take_two_of_initial _ _ _ _ (List.prefix_append _ _) e
    rcases ageOutcome_cases mx
      (((nameField (lineText line)).dropWhile isBlank).rdropWhile isBlank)
      (ageField (lineText line)) with e | e | ⟨a, e, hle, hs⟩ | e
    · rw [e] at h; exact Outcome.noConfusion h
    · rw [e] at h; exact Outcome.noConfusion h
    · rw [e] at h
      injection h with e1 e2
      subst e2
      exact ⟨hc, e1.symm, hs, hle, k1, k2⟩
    · rw [e] at h; exact Outcome.noConfusion h
  · rw [if_pos hc] at h; exact Outcome.noConfusion h

/-- The name of an accepted row, whatever the bytes of the line. -/
theorem name_of_rowKept (mx : Nat) (line name : List Char) (age : Nat)
    (h : rowOutcome mx line = Outcome.kept name age) :
    name ⊆ lineText line ∧ ',' ∉ name ∧ NUL ∉ name ∧
      (∀ c, name.head? = some c → isBlank c = false) ∧
      (∀ c, name.getLast? = some c → isBlank c = false) ∧
      name.head? ≠ some '#' ∧ name.take 2 ≠ ['/', '/'] := by
  obtain ⟨_, hn, _, _, h1, h2⟩ := rowOutcome_kept mx line name age h
  have hnul : NUL ∉ lineText line := nul_not_mem_content line
  have hF : nameField (lineText line) ⊆ lineText line := (List.takeWhile_sublist _).subset
  have hD : (nameField (lineText line)).dropWhile isBlank ⊆ lineText line :=
    fun c hc => hF ((List.dropWhile_sublist _).subset hc)
  have hP : name <+: (nameField (lineText line)).dropWhile isBlank := by
    rw [hn]; exact List.rdropWhile_prefix _ _
  have hN : name ⊆ lineText line := fun c hc => hD (hP.subset hc)
  refine ⟨hN, ?_, fun hx => hnul (hN hx), ?_, ?_, ?_, ?_⟩
  · intro hx
    exact comma_not_mem_nameField _ ((List.dropWhile_sublist _).subset (hP.subset hx))
  · intro c hc'
    exact head_dropWhile_blank _ c (head_of_initial _ _ hP c hc')
  · intro c hc'
    have hne : name ≠ [] := by intro e; rw [e] at hc'; simp at hc'
    have hlast : name.getLast hne = c := by
      rw [List.getLast?_eq_getLast _ hne] at hc'
      exact Option.some.inj hc'
    have := List.rdropWhile_last_not isBlank ((nameField (lineText line)).dropWhile isBlank)
      (by rw [trimBlanks] at hn; rw [← hn]; exact hne)
    have e : List.rdropWhile isBlank ((nameField (lineText line)).dropWhile isBlank) = name := by
      rw [hn, trimBlanks]
    simp only [e] at this
    rw [hlast] at this
    simpa using this
  · intro hx
    exact h1 (head_of_initial _ _ hP _ hx)
  · intro hx
    exact h2 (take_two_of_initial _ _ _ _ hP hx)

/-- Every accepted row of a line read by `fgets` is a good row. -/
theorem goodRow_of_rowKept (mx : Nat) (line name : List Char) (age : Nat) (hl : IsChunk line)
    (h : rowOutcome mx line = Outcome.kept name age) : GoodRow mx name age := by
  obtain ⟨_, _, hs, hle, _, _⟩ := rowOutcome_kept mx line name age h
  obtain ⟨hN, g1, g2, g3, g4, g5, g6⟩ := name_of_rowKept mx line name age h
  have hnl := newline_not_mem_lineText line hl
  exact ⟨⟨g1, fun hx => hnl (hN hx), g2, (option_any_false_iff _ _).2 g3,
    (option_any_false_iff _ _).2 g4, g5, g6⟩, hle, sscanf_u_le _ _ hs⟩

/-- The text an iteration writes: nothing, or one good row. -/
theorem rowText_cases (mx : Nat) (line : List Char) :
    (rowText mx line = [] ∧ isKept mx line = false) ∨
      ∃ name age, rowOutcome mx line = Outcome.kept name age ∧
        rowText mx line = formatRow name age ∧ isKept mx line = true := by
  unfold rowText isKept
  cases h : rowOutcome mx line with
  | kept name age => exact Or.inr ⟨name, age, rfl, rfl, rfl⟩
  | _ => exact Or.inl ⟨rfl, rfl⟩

/-- The rows written for a list of lines read by `fgets`. -/
theorem rows_of_lines (mx : Nat) : ∀ ls : List (List Char), (∀ l ∈ ls, IsChunk l) →
    ∃ rows : List (List Char × Nat),
      (ls.map (rowText mx)).flatten = (rows.map (fun r => formatRow r.1 r.2)).flatten ∧
        (∀ r ∈ rows, GoodRow mx r.1 r.2) ∧ ls.countP (isKept mx) = rows.length := by
  intro ls
  induction ls with
  | nil => intro _; exact ⟨[], rfl, by simp, rfl⟩
  | cons l ls ih =>
    intro h
    obtain ⟨rows, h1, h2, h3⟩ := ih (fun x hx => h x (by simp [hx]))
    rcases rowText_cases mx l with ⟨e1, e2⟩ | ⟨name, age, e0, e1, e2⟩
    · refine ⟨rows, ?_, h2, ?_⟩
      · simp [e1, h1]
      · rw [List.countP_cons, h3]; simp [e2]
    · refine ⟨(name, age) :: rows, ?_, ?_, ?_⟩
      · simp [e1, h1]
      · intro r hr
        rcases List.mem_cons.1 hr with hr | hr
        · subst hr; exact goodRow_of_rowKept mx l name age (h l (by simp)) e0
        · exact h2 r hr
      · rw [List.countP_cons, h3]; simp [e2]

theorem filter_stream_rows_kept (mx : Nat) (inp : List Char) :
    ∃ rows : List (List Char × Nat),
      (filter_stream mx inp).out = (rows.map (fun r => formatRow r.1 r.2)).flatten ∧
        (∀ r ∈ rows, GoodRow mx r.1 r.2) ∧ (filter_stream mx inp).kept = rows.length := by
  rw [filter_stream_closed]
  exact rows_of_lines mx _ (readLines_isChunk inp)

theorem filter_stream_rows (mx : Nat) (inp : List Char) :
    ∃ rows : List (List Char × Nat),
      (filter_stream mx inp).out = (rows.map (fun r => formatRow r.1 r.2)).flatten ∧
        ∀ r ∈ rows, GoodRow mx r.1 r.2 := by
  obtain ⟨rows, h1, h2, _⟩ := filter_stream_rows_kept mx inp
  exact ⟨rows, h1, h2⟩

/-! ## Carriage returns and the class of a line -/

theorem ageOutcome_append_cr (mx : Nat) (name A : List Char) :
    ageOutcome mx name (A ++ ['\r']) = ageOutcome mx name A := by
  unfold ageOutcome
  rw [dropWhile_append_last isAgeSkip A '\r' (by decide)]
  by_cases h : A.dropWhile isAgeSkip = []
  · simp [h]
  · simp only [h, if_false, List.append_eq_nil, false_and, sscanf_u_append_cr]

theorem take_two_append_cr (d : List Char) :
    (d ++ ['\r']).take 2 = ['/', '/'] ↔ d.take 2 = ['/', '/'] := by
  match d with
  | [] => decide
  | [x] => simp
  | x :: y :: u => simp

theorem rowClass_core_cr (mx : Nat) (v : List Char) :
    (rowClass mx (v ++ ['\r'])).core = (rowClass mx v).core := by
  by_cases hc : ',' ∈ v
  · have hc' : ',' ∈ v ++ ['\r'] := List.mem_append_left _ hc
    have hs := fields_split v hc
    have e : v ++ ['\r'] = nameField v ++ ',' :: (ageField v ++ ['\r']) := by
      conv => lhs; rw [hs]
      simp
    have hn : nameField (v ++ ['\r']) = nameField v := by
      rw [e, nameField_append_comma _ _ (comma_not_mem_nameField v)]
    have ha : ageField (v ++ ['\r']) = ageField v ++ ['\r'] := by
      rw [e, ageField_append_comma _ _ (comma_not_mem_nameField v)]
    have hd : v.dropWhile isBlank ≠ [] := by
      rw [dropWhile_blank_fields v hc]; simp
    have hd' : (v ++ ['\r']).dropWhile isBlank = v.dropWhile isBlank ++ ['\r'] := by
      rw [List.dropWhile_append, if_neg (by simpa [List.isEmpty_iff] using hd)]
    have hh : (v.dropWhile isBlank ++ ['\r']).head? = (v.dropWhile isBlank).head? := by
      cases hv : v.dropWhile isBlank with
      | nil => exact absurd hv hd
      | cons x t => rfl
    unfold rowClass
    rw [hd', hn, ha, ageOutcome_append_cr, hh]
    simp only [hd, if_false, List.append_eq_nil, false_and, take_two_append_cr, hc, hc',
      not_true_eq_false]
  · have hc' : ',' ∉ v ++ ['\r'] := by
      intro h
      rcases List.mem_append.1 h with h | h
      · exact hc h
      · simp at h
    have key : ∀ w, ',' ∉ w → (rowClass mx w).core = Outcome.tooOld := by
      intro w hw
      unfold rowClass
      rw [if_pos hw]
      split
      · rfl
      split
      · rfl
      split <;> rfl
    rw [key _ hc', key _ hc]

/-- A line ended by `\r\n` has the effect of the same line ended by `\n`. -/
theorem rowOutcome_core_crlf (mx : Nat) (u : List Char) :
    (rowOutcome mx (u ++ ['\r', '\n'])).core = (rowOutcome mx (u ++ ['\n'])).core := by
  rw [rowOutcome_eq_rowClass, rowOutcome_eq_rowClass]
  by_cases hn : NUL ∈ u
  · unfold lineText
    rw [cstr_append_of_mem u _ hn, cstr_append_of_mem u _ hn]
  · have h1 : NUL ∉ u ++ ['\r', '\n'] := by
      intro h
      rcases List.mem_append.1 h with h | h
      · exact hn h
      · revert h; decide
    have h2 : NUL ∉ u ++ ['\n'] := by
      intro h
      rcases List.mem_append.1 h with h | h
      · exact hn h
      · revert h; decide
    unfold lineText
    rw [cstr_of_not_mem _ h1, cstr_of_not_mem _ h2, stripEol_crlf, stripEol_lf]
    by_cases hl : u.getLast? = some '\r'
    · rw [if_pos hl]
      have e : u = u.dropLast ++ ['\r'] := (List.dropLast_append_getLast? _ hl).symm
      conv => lhs; rw [e]
      exact rowClass_core_cr mx _
    · rw [if_neg hl]

/-- The effect of a line of the text with `\r\n` for `\n`. -/
theorem rowOutcome_core_crlf_line (mx : Nat) (l : List Char) (h : '\n' ∉ l.dropLast) :
    (rowOutcome mx (crlf l)).core = (rowOutcome mx l).core := by
  rcases List.eq_nil_or_concat l with e | ⟨u, x, e⟩
  · subst e; rfl
  · subst e
    simp only [List.concat_eq_append] at h ⊢
    rw [List.dropLast_concat] at h
    by_cases hx : x = '\n'
    · subst hx
      rw [crlf_append, crlf_of_not_mem u h]
      exact rowOutcome_core_crlf mx u
    · have : '\n' ∉ u ++ [x] := by
        intro hc
        rcases List.mem_append.1 hc with hc | hc
        · exact h hc
        · simp at hc; exact hx hc.symm
      rw [crlf_of_not_mem _ this]

/-- The text written and the counter incremented depend on the class only up
to the kind of skip. -/
theorem rowText_of_core (mx : Nat) (a b : List Char)
    (h : (rowOutcome mx a).core = (rowOutcome mx b).core) :
    rowText mx a = rowText mx b ∧ isKept mx a = isKept mx b := by
  unfold rowText isKept
  cases h1 : rowOutcome mx a <;> cases h2 : rowOutcome mx b <;>
    simp [Outcome.core, h1, h2] at h ⊢
  rw [h.1, h.2]

/-- With `\r\n` for `\n`, lines that fit the buffer give the same output and
the same counts. -/
theorem lines_crlf (mx : Nat) (ls : List (List Char)) (h : ∀ l ∈ ls, '\n' ∉ l.dropLast) :
    ((ls.map crlf).map (rowText mx)).flatten = (ls.map (rowText mx)).flatten ∧
      (ls.map crlf).countP (isKept mx) = ls.countP (isKept mx) ∧
      (ls.map crlf).countP (fun l => !isKept mx l) = ls.countP (fun l => !isKept mx l) := by
  induction ls with
  | nil => exact ⟨rfl, rfl, rfl⟩
  | cons l ls ih =>
    obtain ⟨i1, i2, i3⟩ := ih (fun x hx => h x (by simp [hx]))
    obtain ⟨e1, e2⟩ := rowText_of_core mx (crlf l) l
      (rowOutcome_core_crlf_line mx l (h l (by simp)))
    refine ⟨?_, ?_, ?_⟩
    · simp only [List.map_cons, List.flatten_cons, e1, i1]
    · simp only [List.map_cons, List.countP_cons, e2, i2]
    · simp only [List.map_cons, List.countP_cons, e2, i3]

/-! ## Filtering the output again -/

/-- A written row with an empty name is read back as the same row. -/
theorem rowOutcome_formatRow_nil (mx a : Nat) (hle : a ≤ mx) (hu : a ≤ UINT_MAX) :
    rowOutcome mx (formatRow [] a) = Outcome.kept [] a := by
  have hl := lineText_row [] a (by simp)
  have ha := ageText_row [] a (by simp)
  simp only [List.nil_append] at hl ha
  unfold ageText at ha
  have hn : nameField (',' :: ' ' :: utoa a) = [] := nameField_append_comma [] _ (by simp)
  have hs : sscanf_u (utoa a) = some a := by
    simpa using sscanf_u_utoa a [] hu (by simp)
  have hne : utoa a ≠ [] := (utoa_spec a).1
  have hd : List.dropWhile isBlank (',' :: ' ' :: utoa a) = ',' :: ' ' :: utoa a := by
    simp [isBlank]
  rw [rowOutcome_eq_rowClass, hl]
  unfold rowClass ageOutcome
  rw [hd, hn, ha, hs]
  simp [hne, hle]

/-- A good row written by the program is read back as the same row. -/
theorem rowText_formatRow (mx : Nat) (name : List Char) (a : Nat) (hg : GoodRow mx name a) :
    rowText mx (formatRow name a) = formatRow name a := by
  have h : rowOutcome mx (formatRow name a) = Outcome.kept name a := by
    by_cases hne : name = []
    · subst hne
      exact rowOutcome_formatRow_nil mx a hg.2.1 hg.2.2
    · exact rowOutcome_of_processLine mx _ _ (processLine_formatRow mx a name hne hg)
        (fun e => Outcome.noConfusion e)
  unfold rowText
  rw [h]

/-- Filtering a text made of good rows that fit the buffer writes the same
rows. -/
theorem rerun_rows (mx : Nat) (rows : List (List Char × Nat))
    (h : ∀ r ∈ rows, GoodRow mx r.1 r.2 ∧ (formatRow r.1 r.2).length ≤ LINE_MAX - 1) :
    (filter_stream mx (rows.map (fun r => formatRow r.1 r.2)).flatten).out
      = (rows.map (fun r => formatRow r.1 r.2)).flatten := by
  have hr := rawLines_rows rows (fun r hr => (h r hr).1.1.2.1)
  have hread : readLines (rows.map (fun r => formatRow r.1 r.2)).flatten
      = rows.map (fun r => formatRow r.1 r.2) := by
    rw [readLines_eq_rawLines _ (by
      rw [hr]
      intro l hl
      obtain ⟨r, hr', rfl⟩ := List.mem_map.1 hl
      exact (h r hr').2), hr]
  rw [filter_stream_closed, hread]
  simp only
  congr 1
  rw [List.map_map]
  apply List.map_congr_left
  intro r hr'
  exact rowText_formatRow mx r.1 r.2 (h r hr').1

/-! ## Lines longer than the buffer -/

theorem piecesAux_fuel : ∀ (f1 f2 : Nat) (s : List Char),
    s.length ≤ f1 → s.length ≤ f2 → piecesAux f1 s = piecesAux f2 s := by
  intro f1
  induction f1 with
  | zero =>
    intro f2 s h1 _
    have : s = [] := List.length_eq_zero.1 (by omega)
    subst this
    cases f2 <;> simp [piecesAux]
  | succ f1 ih =>
    intro f2 s h1 h2
    cases s with
    | nil => cases f2 <;> simp [piecesAux]
    | cons c t =>
      obtain ⟨f2, rfl⟩ : ∃ j, f2 = j + 1 := ⟨f2 - 1, by simp at h2; omega⟩
      unfold piecesAux
      rw [if_neg (by simp), if_neg (by simp)]
      have hlen : ((c :: t).drop (LINE_MAX - 1)).length < (c :: t).length := by
        rw [List.length_drop]
        simp [LINE_MAX]
        omega
      simp only [List.length_cons] at h1 h2 hlen
      rw [ih f2 _ (by omega) (by omega)]

theorem pieces_nil : pieces [] = [] := rfl

/-- The first piece is the leading `LINE_MAX - 1` bytes, the other pieces are
those of the rest. -/
theorem pieces_cons (s : List Char) (hs : s ≠ []) :
    pieces s = s.take (LINE_MAX - 1) :: pieces (s.drop (LINE_MAX - 1)) := by
  unfold pieces
  obtain ⟨n, hn⟩ : ∃ n, s.length = n + 1 :=
    ⟨s.length - 1, by have := List.length_pos.2 hs; omega⟩
  have hlen : (s.drop (LINE_MAX - 1)).length ≤ n := by
    rw [List.length_drop]
    simp [LINE_MAX]
    omega
  rw [hn, piecesAux, if_neg hs, piecesAux_fuel n _ _ hlen (Nat.le_refl _)]

theorem pieces_short (s : List Char) (hs : s ≠ []) (hlen : s.length ≤ LINE_MAX - 1) :
    pieces s = [s] := by
  rw [pieces_cons s hs, List.take_of_length_le hlen, List.drop_of_length_le hlen, pieces_nil]

theorem pieces_flatten (s : List Char) : (pieces s).flatten = s := by
  generalize hn : s.length = n
  induction n using Nat.strong_induction_on generalizing s with
  | _ n ih =>
    by_cases hs : s = []
    · subst hs; rfl
    · have hlen : (s.drop (LINE_MAX - 1)).length < n := by
        have := List.length_pos.2 hs
        rw [List.length_drop, hn]
        simp [LINE_MAX]
        omega
      rw [pieces_cons s hs, List.flatten_cons, ih _ hlen _ rfl, List.take_append_drop]

/-- A text longer than the buffer is cut into at least two pieces. -/
theorem pieces_long (s : List Char) (h : LINE_MAX - 1 < s.length) : 2 ≤ (pieces s).length := by
  have hs : s ≠ [] := by intro e; subst e; simp at h
  have hd : s.drop (LINE_MAX - 1) ≠ [] := by
    intro e
    have := congrArg List.length e
    rw [List.length_drop] at this
    simp at this
    omega
  rw [pieces_cons s hs, pieces_cons _ hd]
  simp

theorem fgetsAux_short (k : Nat) (l : List Char) (hl : '\n' ∉ l) (hlen : l.length ≤ k) :
    fgetsAux k l = (l, []) := by
  induction l generalizing k with
  | nil => cases k <;> rfl
  | cons x t ih =>
    obtain ⟨k, rfl⟩ : ∃ j, k = j + 1 := ⟨k - 1, by simp at hlen; omega⟩
    have hx : x ≠ '\n' := fun e => hl (by simp [e])
    have ht : '\n' ∉ t := fun e => hl (by simp [e])
    unfold fgetsAux
    rw [if_neg hx, ih k ht (by simpa using hlen)]

/-- The lines read from a text without newline: its pieces. -/
theorem readLines_unterminated (l : List Char) (hl : '\n' ∉ l) : readLines l = pieces l := by
  generalize hn : l.length = n
  induction n using Nat.strong_induction_on generalizing l with
  | _ n ih =>
    by_cases hs : l = []
    · subst hs; rfl
    · by_cases hlen : l.length ≤ LINE_MAX - 1
      · have hf : fgets LINE_MAX l = some (l, []) := by
          cases l with
          | nil => exact absurd rfl hs
          | cons x t =>
            simp only [fgets]
            rw [fgetsAux_short _ _ hl (by simpa [LINE_MAX] using hlen)]
        rw [readLines_of_fgets _ _ _ hf, pieces_short l hs hlen]
        rfl
      · have e : l = l.take (LINE_MAX - 1) ++ l.drop (LINE_MAX - 1) :=
          (List.take_append_drop _ _).symm
        have ha : (l.take (LINE_MAX - 1)).length = LINE_MAX - 1 := by
          rw [List.length_take]; omega
        have hna : '\n' ∉ l.take (LINE_MAX - 1) := fun h => hl (List.mem_of_mem_take h)
        have hnb : '\n' ∉ l.drop (LINE_MAX - 1) := fun h => hl (List.mem_of_mem_drop h)
        have hf := fgets_full _ (l.drop (LINE_MAX - 1)) ha hna
        rw [← e] at hf
        have hlt : (l.drop (LINE_MAX - 1)).length < n := by
          rw [List.length_drop, hn]
          simp [LINE_MAX] at hlen ⊢
          omega
        rw [readLines_of_fgets _ _ _ hf, pieces_cons l hs, ih _ hlt _ hnb rfl]

/-- The lines read from a line of any length and what follows it: the pieces
of the line with its newline, then the lines of the rest. -/
theorem readLines_terminated (l rest : List Char) (hl : '\n' ∉ l) :
    readLines (l ++ '\n' :: rest) = pieces (l ++ ['\n']) ++ readLines rest := by
  generalize hn : l.length = n
  induction n using Nat.strong_induction_on generalizing l with
  | _ n ih =>
    by_cases hlen : l.length + 1 ≤ LINE_MAX - 1
    · rw [readLines_of_fgets _ _ _ (fgets_line l rest hl hlen),
        pieces_short (l ++ ['\n']) (by simp) (by simpa using hlen)]
      rfl
    · have e : l = l.take (LINE_MAX - 1) ++ l.drop (LINE_MAX - 1) :=
        (List.take_append_drop _ _).symm
      have ha : (l.take (LINE_MAX - 1)).length = LINE_MAX - 1 := by
        rw [List.length_take]; omega
      have hna : '\n' ∉ l.take (LINE_MAX - 1) := fun h => hl (List.mem_of_mem_take h)
      have hnb : '\n' ∉ l.drop (LINE_MAX - 1) := fun h => hl (List.mem_of_mem_drop h)
      have hf := fgets_full _ (l.drop (LINE_MAX - 1) ++ '\n' :: rest) ha hna
      rw [← List.append_assoc, ← e] at hf
      have hlt : (l.drop (LINE_MAX - 1)).length < n := by
        rw [List.length_drop, hn]
        simp [LINE_MAX] at hlen ⊢
        omega
      have h1 : (l ++ ['\n']).take (LINE_MAX - 1) = l.take (LINE_MAX - 1) := by
        rw [List.take_append_of_le_length (by omega)]
      have h2 : (l ++ ['\n']).drop (LINE_MAX - 1) = l.drop (LINE_MAX - 1) ++ ['\n'] := by
        rw [List.drop_append_of_le_length (by omega)]
      rw [readLines_of_fgets _ _ _ hf, pieces_cons (l ++ ['\n']) (by simp), h1, h2,
        ih _ hlt _ hnb rfl]
      rfl

/-- Nothing of the input is lost: the lines read, one after the other, are
the input. -/
theorem readLines_flatten (inp : List Char) : (readLines inp).flatten = inp := by
  generalize hn : inp.length = n
  induction n using Nat.strong_induction_on generalizing inp with
  | _ n ih =>
    cases hf : fgets LINE_MAX inp with
    | none =>
      have := (fgets_eq_none inp).1 hf
      subst this
      rfl
    | some lr =>
      obtain ⟨line, rest⟩ := lr
      obtain ⟨hch, happ⟩ := fgets_some _ _ _ hf
      have hlen : rest.length < n := by
        rw [← hn, happ, List.length_append]
        have := List.length_pos.2 hch.1
        omega
      rw [readLines_of_fgets inp line rest hf, List.flatten_cons, ih _ hlen rest rfl, ← happ]

/-! ## Counting, messages and missing ages -/

theorem countP_isKept_add (mx : Nat) (ls : List (List Char)) :
    ls.countP (isKept mx) + ls.countP (fun l => !isKept mx l) = ls.length := by
  induction ls with
  | nil => rfl
  | cons l ls ih =>
    rw [List.countP_cons, List.countP_cons, List.length_cons]
    cases isKept mx l <;> simp <;> omega

/-- An iteration counts its line once. -/
theorem step_counts (mx : Nat) (st : RunState) (line : List Char) :
    ((step mx st line).kept = st.kept + 1 ∧ (step mx st line).skipped = st.skipped) ∨
      ((step mx st line).kept = st.kept ∧ (step mx st line).skipped = st.skipped + 1) := by
  rw [step_eq]
  cases isKept mx line <;> simp

/-- A line with a comma that is no comment and has only spaces and carriage
returns behind the comma is classified as missing age. -/
theorem rowOutcome_ageMissing (mx : Nat) (line : List Char)
    (h2 : ((lineText line).dropWhile isBlank).head? ≠ some '#')
    (h3 : ((lineText line).dropWhile isBlank).take 2 ≠ ['/', '/'])
    (hc : ',' ∈ lineText line)
    (ha : ∀ c ∈ ageField (lineText line), isAgeSkip c = true) :
    rowOutcome mx line = Outcome.ageMissing := by
  have hd : (lineText line).dropWhile isBlank ≠ [] := by
    rw [dropWhile_blank_fields _ hc]; simp
  rw [rowOutcome_eq_rowClass]
  unfold rowClass ageOutcome
  rw [if_neg hd, if_neg h2, if_neg h3, if_neg (not_not.2 hc),
    if_pos (List.dropWhile_eq_nil_iff.2 ha)]

/-! ## The claims -/

/-- Claim C1: for every input text and every `filter_age_max`, every line of the text
written to the output stream is a row `name, age` with its newline, whose name
has no comma and whose age is at most `filter_age_max`; that age is also the
one the program itself parses from the written line. -/
theorem written_rows_within_max (filter_age_max : Nat) (inp : List Char) :
    ∀ l ∈ rawLines (filter_stream filter_age_max inp).out,
      ∃ name age, l = formatRow name age ∧ ',' ∉ name ∧ age ≤ filter_age_max ∧
        sscanf_u (ageText (lineText l)) = some age := by
  obtain ⟨rows, h1, h2⟩ := filter_stream_rows filter_age_max inp
  intro l hl
  rw [h1, rawLines_rows rows (fun r hr => (h2 r hr).1.2.1)] at hl
  obtain ⟨r, hr, rfl⟩ := List.mem_map.1 hl
  obtain ⟨hg, hle, hu⟩ := h2 r hr
  refine ⟨r.1, r.2, rfl, hg.1, hle, ?_⟩
  rw [lineText_row _ _ hg.2.2.1, ageText_row _ _ hg.1]
  simpa using sscanf_u_utoa r.2 [] hu (by simp)

/-- Witness of `written_rows_within_max`: a line written for the input of
scenario A behind a row with an empty name. -/
theorem written_rows_within_max_witness :
    "Alice, 17\n".toList ∈ rawLines (filter_stream 18 ",5\nAlice, 17\nBob,19\n".toList).out ∧
      ∃ name age, "Alice, 17\n".toList = formatRow name age ∧ ',' ∉ name ∧ age ≤ 18 ∧
        sscanf_u (ageText (lineText "Alice, 17\n".toList)) = some age :=
  ⟨by decide,
   written_rows_within_max 18 ",5\nAlice, 17\nBob,19\n".toList "Alice, 17\n".toList (by decide)⟩

/-- Claim C2, amended: the boundary.  Take a record line made of a good, non-empty
name with spaces or tabs around it, a comma, spaces or tabs and the age in
decimal, ended by a newline, and a maximum age `m` (an `unsigned`, so
`m ≤ UINT_MAX`).  With the age `m` the row is kept: `name, m` is written and
`kept` is incremented.  With the age `m + 1`, provided `m + 1` is still an
`unsigned` (`m + 1 ≤ UINT_MAX`), the row is skipped: `skipped` is incremented,
nothing is written to the output and no message is logged.  A record line of
at most `LINE_MAX - 1` bytes is read by one call of `fgets`. -/
theorem boundary_rows (m : Nat) (lead name trail ws rest : List Char) (st : RunState)
    (hlead : ∀ c ∈ lead, isBlank c = true) (htrail : ∀ c ∈ trail, isBlank c = true)
    (hws : ∀ c ∈ ws, isBlank c = true) (hne : name ≠ []) (hg : GoodName name)
    (hmax : m ≤ UINT_MAX) :
    step m st (rowLine lead name trail ws m)
        = { st with line_number := st.line_number + 1,
                    out := st.out ++ formatRow name m,
                    kept := st.kept + 1 } ∧
    (m + 1 ≤ UINT_MAX →
      step m st (rowLine lead name trail ws (m + 1))
        = { st with line_number := st.line_number + 1, skipped := st.skipped + 1 }) ∧
    (∀ a : Nat, (rowLine lead name trail ws a).length ≤ LINE_MAX - 1 →
      fgets LINE_MAX (rowLine lead name trail ws a ++ rest)
        = some (rowLine lead name trail ws a, rest)) := by
  refine ⟨?_, ?_, ?_⟩
  · have p0 := processLine_row m m lead name trail ws hlead htrail hws hne hg hmax
    rw [if_pos (Nat.le_refl m)] at p0
    unfold step rowLine
    rw [p0]
  · intro hm
    have p1 := processLine_row m (m + 1) lead name trail ws hlead htrail hws hne hg hm
    rw [if_neg (by omega)] at p1
    unfold step rowLine
    rw [p1]
  · intro a hlen
    exact rowLine_read _ _ _ _ _ _ hlead htrail hws hg hlen

/-- Witness of `boundary_rows`: the rows `Bob,18` and `Bob,19` with `filter_age_max = 18`,
and the row `Bob,4294967295` with `filter_age_max = UINT_MAX`. -/
theorem boundary_rows_witness :
    step 18 RunState.init (rowLine [] "Bob".toList [] [] 18)
        = { out := "Bob, 18\n".toList, log := [], kept := 1, skipped := 0, line_number := 1,
            fault := false } ∧
      step 18 RunState.init (rowLine [] "Bob".toList [] [] 19)
        = { out := [], log := [], kept := 0, skipped := 1, line_number := 1, fault := false } ∧
      fgets LINE_MAX (rowLine [] "Bob".toList [] [] 18 ++ "rest".toList)
        = some (rowLine [] "Bob".toList [] [] 18, "rest".toList) ∧
      step UINT_MAX RunState.init (rowLine [] "Bob".toList [] [] UINT_MAX)
        = { out := "Bob, 4294967295\n".toList, log := [], kept := 1, skipped := 0,
            line_number := 1, fault := false } :=
  ⟨(boundary_rows 18 [] "Bob".toList [] [] "rest".toList RunState.init (by simp) (by simp)
      (by simp) (by decide) (by decide) (by decide)).1,
   (boundary_rows 18 [] "Bob".toList [] [] "rest".toList RunState.init (by simp) (by simp)
      (by simp) (by decide) (by decide) (by decide)).2.1 (by decide),
   (boundary_rows 18 [] "Bob".toList [] [] "rest".toList RunState.init (by simp) (by simp)
      (by simp) (by decide) (by decide) (by decide)).2.2 18 (by decide),
   (boundary_rows UINT_MAX [] "Bob".toList [] [] [] RunState.init (by simp) (by simp)
      (by simp) (by decide) (by decide) (by decide)).1⟩

/-- Claim C2 fails as stated for `filter_age_max = UINT_MAX`: the row `x,4294967296`
carries the age `UINT_MAX + 1`, which `%u` stores as `0`, so the row is kept and
`x, 0` is written instead of the row being skipped. -/
theorem boundary_fails_at_UINT_MAX :
    step UINT_MAX RunState.init (rowLine [] ['x'] [] [] (UINT_MAX + 1))
      = { out := "x, 0\n".toList, log := [], kept := 1, skipped := 0, line_number := 1,
          fault := false } := by
  decide

/-- Claim C5: for every input in which each line fits the line buffer (at most
`LINE_MAX - 1 = 99` bytes with its newline, so 98 before the newline or 99 for
a last line without newline), when `filter_stream` finishes `kept + skipped`
is the number of lines of the input, a last fragment without newline counting
as a line, and so is `line_number`; every iteration adds one to exactly one of
the two counters. -/
theorem counters_count_lines (filter_age_max : Nat) (inp : List Char)
    (hfit : ∀ l ∈ rawLines inp, l.length ≤ LINE_MAX - 1) :
    (filter_stream filter_age_max inp).kept + (filter_stream filter_age_max inp).skipped
        = (rawLines inp).length ∧
      (filter_stream filter_age_max inp).line_number = (rawLines inp).length ∧
      ∀ (st : RunState) (line : List Char),
        ((step filter_age_max st line).kept = st.kept + 1 ∧
            (step filter_age_max st line).skipped = st.skipped) ∨
          ((step filter_age_max st line).kept = st.kept ∧
            (step filter_age_max st line).skipped = st.skipped + 1) := by
  refine ⟨?_, ?_, step_counts filter_age_max⟩
  · rw [filter_stream_closed, readLines_eq_rawLines inp hfit]
    exact countP_isKept_add filter_age_max _
  · rw [filter_stream_closed, readLines_eq_rawLines inp hfit]

/-- Witness of `counters_count_lines`: four lines, the first with an empty name, the
last one without newline. -/
theorem counters_count_lines_witness :
    (filter_stream 18 ",5\nAlice, 17\n# c\nBob,19".toList).kept
        + (filter_stream 18 ",5\nAlice, 17\n# c\nBob,19".toList).skipped
        = (rawLines ",5\nAlice, 17\n# c\nBob,19".toList).length ∧
      (filter_stream 18 ",5\nAlice, 17\n# c\nBob,19".toList).line_number
        = (rawLines ",5\nAlice, 17\n# c\nBob,19".toList).length ∧
      ∀ (st : RunState) (line : List Char),
        ((step 18 st line).kept = st.kept + 1 ∧ (step 18 st line).skipped = st.skipped) ∨
          ((step 18 st line).kept = st.kept ∧ (step 18 st line).skipped = st.skipped + 1) :=
  counters_count_lines 18 ",5\nAlice, 17\n# c\nBob,19".toList (by decide)

/-- Claim C6, amended: filtering is idempotent on outputs whose lines fit the line
buffer.  If every line of the text `out` written by `filter_stream` is at most
99 bytes long with its newline, then `filter_stream` on `out` with the same
`filter_age_max` writes exactly `out` again. -/
theorem refilter_output (filter_age_max : Nat) (inp : List Char)
    (h : ∀ l ∈ rawLines (filter_stream filter_age_max inp).out, l.length ≤ LINE_MAX - 1) :
    (filter_stream filter_age_max (filter_stream filter_age_max inp).out).out
      = (filter_stream filter_age_max inp).out := by
  obtain ⟨rows, h1, h2⟩ := filter_stream_rows filter_age_max inp
  rw [h1] at h ⊢
  rw [rawLines_rows rows (fun r hr => (h2 r hr).1.2.1)] at h
  exact rerun_rows filter_age_max rows
    (fun r hr => ⟨h2 r hr, h _ (List.mem_map.2 ⟨r, hr, rfl⟩)⟩)

/-- Witness of `refilter_output`: the output of a three-line input, one row of which
has an empty name. -/
theorem refilter_output_witness :
    (filter_stream 18 (filter_stream 18 ",5\nAlice , 17\nBob,19\n".toList).out).out
      = (filter_stream 18 ",5\nAlice , 17\nBob,19\n".toList).out :=
  refilter_output 18 ",5\nAlice , 17\nBob,19\n".toList (by decide)

set_option maxRecDepth 100000 in
/-- Claim C6 fails as stated: a row with a name of 97 bytes is accepted, the row
written is 101 bytes long, and filtering that output again cuts the row in two
pieces that are both skipped, so nothing is written. -/
theorem refilter_changes_long_row :
    (filter_stream 18 (List.replicate 97 'a' ++ ",5\n".toList)).out
        = List.replicate 97 'a' ++ ", 5\n".toList ∧
      (filter_stream 18 (filter_stream 18 (List.replicate 97 'a' ++ ",5\n".toList)).out).out
        = [] ∧
      (filter_stream 18 (filter_stream 18 (List.replicate 97 'a' ++ ",5\n".toList)).out).out
        ≠ (filter_stream 18 (List.replicate 97 'a' ++ ",5\n".toList)).out := by
  decide

/-- Claim C7, amended: the permissive parse of the age.  For every line that is
not classified as a comment, whose name trim stays inside `parsebuffer`, and
whose age field after the leading spaces and carriage returns begins with a
decimal digit, with the value of the leading run of digits at most
`UINT_MAX`: the parsed age is the value of that run, what follows the run is
ignored, the row is not malformed, and it is kept or skipped by comparing
that value with `filter_age_max`. -/
theorem age_digit_run (filter_age_max : Nat) (line : List Char) (c : Char) (t : List Char)
    (h1 : processLine filter_age_max line ≠ Outcome.comment)
    (h2 : processLine filter_age_max line ≠ Outcome.outOfBounds)
    (ha : ageText (lineText line) = c :: t) (hd : isdigit c = true)
    (hv : digitsVal ((c :: t).takeWhile isdigit) ≤ UINT_MAX) :
    sscanf_u (ageText (lineText line)) = some (digitsVal ((c :: t).takeWhile isdigit)) ∧
    processLine filter_age_max line =
      if digitsVal ((c :: t).takeWhile isdigit) ≤ filter_age_max then
        Outcome.kept (trimBlanks (nameField (lineText line)))
          (digitsVal ((c :: t).takeWhile isdigit))
      else Outcome.tooOld := by
  have hne : ageText (lineText line) ≠ [] := by rw [ha]; simp
  have hs : sscanf_u (ageText (lineText line))
      = some (digitsVal ((c :: t).takeWhile isdigit)) := by
    rw [ha, sscanf_u_digits c t hd]
    have : ¬ ULONG_MAX < digitsVal ((c :: t).takeWhile isdigit) := by
      unfold UINT_MAX at hv; unfold ULONG_MAX; omega
    rw [if_neg this, Nat.mod_eq_of_lt (by omega)]
  refine ⟨hs, ?_⟩
  rw [processLine_age filter_age_max line (comma_mem_of_ageText _ hne) h1 h2, if_neg hne, hs]

/-- Witness of `age_digit_run`: the age field `12abc` is the age 12. -/
theorem age_digit_run_witness :
    sscanf_u (ageText (lineText " Bob ,  12abc\n".toList))
        = some (digitsVal ("12abc".toList.takeWhile isdigit)) ∧
    processLine 18 " Bob ,  12abc\n".toList =
      if digitsVal ("12abc".toList.takeWhile isdigit) ≤ 18 then
        Outcome.kept (trimBlanks (nameField (lineText " Bob ,  12abc\n".toList)))
          (digitsVal ("12abc".toList.takeWhile isdigit))
      else Outcome.tooOld :=
  age_digit_run 18 " Bob ,  12abc\n".toList '1' "2abc".toList (by decide) (by decide)
    (by decide) (by decide) (by decide)

/-- Claim C7 fails as stated when the run of digits does not fit an `unsigned`:
the age field `4294967296` is parsed as the age `0`, and the row is kept with
`filter_age_max = 18`. -/
theorem age_digit_run_overflows :
    ageText (lineText "Bob,4294967296\n".toList) = "4294967296".toList ∧
      digitsVal ("4294967296".toList.takeWhile isdigit) = 4294967296 ∧
      processLine 18 "Bob,4294967296\n".toList = Outcome.kept "Bob".toList 0 ∧
      (step 18 RunState.init "Bob,4294967296\n".toList).out = "Bob, 0\n".toList := by
  decide

/-- Claim C8, amended: for every line that is not classified as a comment, whose
name trim stays inside `parsebuffer`, and whose age field after the leading
spaces and carriage returns is not empty and does not begin a number for `%u`
(after white space and an optional sign there is no decimal digit), the row is
classified as malformed age: nothing is written, `skipped` is incremented and
the `Bad age` message with the line number and the raw line is logged. -/
theorem age_not_numeric (filter_age_max : Nat) (st : RunState) (line : List Char)
    (h1 : processLine filter_age_max line ≠ Outcome.comment)
    (h2 : processLine filter_age_max line ≠ Outcome.outOfBounds)
    (ha : ageText (lineText line) ≠ [])
    (hn : numericStart (ageText (lineText line)) = false) :
    processLine filter_age_max line = Outcome.badAge ∧
      step filter_age_max st line =
        { st with line_number := st.line_number + 1,
                  log := st.log ++ [Diag.badAge (st.line_number + 1) (cstr line)],
                  skipped := st.skipped + 1 } := by
  have hp : processLine filter_age_max line = Outcome.badAge := by
    rw [processLine_age filter_age_max line (comma_mem_of_ageText _ ha) h1 h2, if_neg ha,
      (sscanf_u_eq_none_iff _).2 hn]
  refine ⟨hp, ?_⟩
  unfold step
  rw [hp]

/-- Witness of `age_not_numeric`: the age field `abc`. -/
theorem age_not_numeric_witness :
    processLine 18 "Bob, abc\n".toList = Outcome.badAge ∧
      step 18 RunState.init "Bob, abc\n".toList =
        { out := [], log := [Diag.badAge 1 "Bob, abc\n".toList], kept := 0, skipped := 1,
          line_number := 1, fault := false } :=
  age_not_numeric 18 RunState.init "Bob, abc\n".toList (by decide) (by decide) (by decide)
    (by decide)

/-- Claim C8 fails as stated: an age field that begins with `+` or with a tab is
converted by `%u` and the row is kept, and the field `-1` is converted to
`UINT_MAX` and the row is skipped without a message. -/
theorem sign_and_tab_accepted :
    processLine 18 "Bob,+5\n".toList = Outcome.kept "Bob".toList 5 ∧
      processLine 18 "Bob,\t5\n".toList = Outcome.kept "Bob".toList 5 ∧
      processLine 18 "Bob,-1\n".toList = Outcome.tooOld ∧
      (step 18 RunState.init "Bob,+5\n".toList).out = "Bob, 5\n".toList ∧
      (step 18 RunState.init "Bob,+5\n".toList).skipped = 0 ∧
      (step 18 RunState.init "Bob,+5\n".toList).log = [] ∧
      (step 18 RunState.init "Bob,-1\n".toList).log = [] := by
  decide

/-- Claim C9, amended: `main` accepts the first argument exactly when it begins a
number for `%u`.  With one to three arguments, if after white space and an
optional sign the first argument has no decimal digit, `main` returns
`EXIT_FAILURE` after the message and the usage text, opens no file and
processes no row; otherwise the converted value becomes `filter_age_max` and
the run goes on. -/
theorem max_age_argument (env : Env) (prog a1 : List Char) (more : List (List Char))
    (hlen : more.length ≤ 2) :
    (numericStart a1 = false →
      main env prog (a1 :: more) =
        { status := EXIT_FAILURE,
          err := "First argument is not a valid number.\n".toList ++ print_usage prog,
          fopens := [], run := none }) ∧
    (numericStart a1 = true →
      ∃ v, sscanf_u a1 = some v ∧ v ≤ UINT_MAX ∧
        main env prog (a1 :: more) = mainRun env v more[0]? more[1]?) := by
  have hm : main env prog (a1 :: more) = mainArgs env prog a1 more[0]? more[1]? := by
    match more, hlen with
    | [], _ => rfl
    | [_], _ => rfl
    | [_, _], _ => rfl
    | _ :: _ :: _ :: _, h => simp at h
  constructor
  · intro hn
    rw [hm]
    unfold mainArgs
    rw [(sscanf_u_eq_none_iff a1).2 hn]
  · intro hn
    cases hs : sscanf_u a1 with
    | none =>
      rw [(sscanf_u_eq_none_iff a1).1 hs] at hn
      exact Bool.noConfusion hn
    | some v =>
      refine ⟨v, rfl, sscanf_u_le a1 v hs, ?_⟩
      rw [hm]
      unfold mainArgs
      rw [hs]

/-- Witness of `max_age_argument`: the first argument `abc`. -/
theorem max_age_argument_witness :
    (numericStart "abc".toList = false →
      main (stdinOnly []) "filter".toList ["abc".toList, "in.csv".toList] =
        { status := EXIT_FAILURE,
          err := "First argument is not a valid number.\n".toList ++ print_usage "filter".toList,
          fopens := [], run := none }) ∧
    (numericStart "abc".toList = true →
      ∃ v, sscanf_u "abc".toList = some v ∧ v ≤ UINT_MAX ∧
        main (stdinOnly []) "filter".toList ["abc".toList, "in.csv".toList]
          = mainRun (stdinOnly []) v ["in.csv".toList][0]? ["in.csv".toList][1]?) :=
  max_age_argument (stdinOnly []) "filter".toList "abc".toList ["in.csv".toList] (by decide)

/-- Claim C9 fails as stated: the first arguments `18abc` and `-1` are accepted,
as the maximum ages 18 and `UINT_MAX`, and the rows of `stdin` are filtered. -/
theorem partial_max_age_accepted :
    (main (stdinOnly "Alice, 17\nBob,19\n".toList) "filter".toList ["18abc".toList]).status
        = EXIT_SUCCESS ∧
      (main (stdinOnly "Alice, 17\nBob,19\n".toList) "filter".toList ["18abc".toList]).run
        = some (filter_stream 18 "Alice, 17\nBob,19\n".toList) ∧
      (filter_stream 18 "Alice, 17\nBob,19\n".toList).out = "Alice, 17\n".toList ∧
      (main (stdinOnly "Alice, 17\nBob,19\n".toList) "filter".toList ["-1".toList]).status
        = EXIT_SUCCESS ∧
      (main (stdinOnly "Alice, 17\nBob,19\n".toList) "filter".toList ["-1".toList]).run
        = some (filter_stream 4294967295 "Alice, 17\nBob,19\n".toList) := by
  decide

/-- Claim C10: when the number of user arguments is zero or more than three,
`main` writes the usage text, returns `EXIT_FAILURE`, and has opened no file
and processed no row. -/
theorem wrong_argument_count (env : Env) (prog : List Char) (args : List (List Char))
    (h : args.length = 0 ∨ 3 < args.length) :
    main env prog args =
      { status := EXIT_FAILURE, err := print_usage prog, fopens := [], run := none } := by
  match args, h with
  | [], _ => rfl
  | [_], h => simp at h
  | [_, _], h => simp at h
  | [_, _, _], h => simp at h
  | _ :: _ :: _ :: _ :: _, _ => rfl

/-- Witness of `wrong_argument_count`: no argument, and four arguments. -/
theorem wrong_argument_count_witness :
    main (stdinOnly "Alice, 17\n".toList) "filter".toList [] =
        { status := EXIT_FAILURE, err := print_usage "filter".toList, fopens := [], run := none } ∧
      main (stdinOnly "Alice, 17\n".toList) "filter".toList
          ["18".toList, "a".toList, "b".toList, "c".toList] =
        { status := EXIT_FAILURE, err := print_usage "filter".toList, fopens := [], run := none } :=
  ⟨wrong_argument_count _ _ [] (Or.inl rfl),
   wrong_argument_count _ _ ["18".toList, "a".toList, "b".toList, "c".toList] (Or.inr (by decide))⟩

/-- Claim C12: for every maximum age and every line of text whose content after the
leading spaces and tabs is not empty, does not begin with `#` or `//` and has
no comma, nothing is written to the output, `skipped` is incremented by one,
and the one message logged carries the line as `fgets` stored it (its C
string), which for a line without `NUL` byte is the raw line itself, leading
blanks and newline included. -/
theorem no_comma_line (filter_age_max : Nat) (st : RunState) (line : List Char)
    (h1 : (lineText line).dropWhile isBlank ≠ [])
    (h2 : ((lineText line).dropWhile isBlank).head? ≠ some '#')
    (h3 : ((lineText line).dropWhile isBlank).take 2 ≠ ['/', '/'])
    (h4 : ',' ∉ lineText line) :
    step filter_age_max st line =
        { st with line_number := st.line_number + 1,
                  log := st.log ++ [Diag.noComma (st.line_number + 1) (cstr line)],
                  skipped := st.skipped + 1 } ∧
      (NUL ∉ line →
        Diag.render (Diag.noComma (st.line_number + 1) (cstr line)) =
          "Line ".toList ++ utoa (st.line_number + 1) ++ ": No comma -> skipped: ".toList
            ++ line ++ "\n".toList) := by
  have hp : processLine filter_age_max line = Outcome.noComma := by
    rw [processLine_eq_classify]
    unfold classify
    unfold lineText at h1 h2 h3 h4
    rw [if_neg h4, if_neg h1, if_neg h2, if_neg h3]
  constructor
  · unfold step
    rw [hp]
  · intro hn
    rw [cstr_of_not_mem line hn]
    rfl

/-- Witness of `no_comma_line`: a line without comma, with blanks around it. -/
theorem no_comma_line_witness :
    step 18 RunState.init "  NoCommaHere \n".toList =
        { out := [], log := [Diag.noComma 1 "  NoCommaHere \n".toList], kept := 0, skipped := 1,
          line_number := 1, fault := false } ∧
      (NUL ∉ "  NoCommaHere \n".toList →
        Diag.render (Diag.noComma (RunState.init.line_number + 1) (cstr "  NoCommaHere \n".toList)) =
          "Line ".toList ++ utoa (RunState.init.line_number + 1)
            ++ ": No comma -> skipped: ".toList ++ "  NoCommaHere \n".toList ++ "\n".toList) :=
  no_comma_line 18 RunState.init "  NoCommaHere \n".toList (by decide) (by decide) (by decide)
    (by decide)

/-- Claim C13: for every maximum age and every line that is no comment, has a comma
and has only spaces and carriage returns behind its first comma (once the line
terminator is stripped), the row is classified as missing age: nothing is
written to the output, `skipped` is incremented by one and the one message
logged is `Age missing` with the line number and the line.  This holds also
when the name field is empty, in which case the state is marked `fault`. -/
theorem missing_age_line (filter_age_max : Nat) (st : RunState) (line : List Char)
    (h2 : ((lineText line).dropWhile isBlank).head? ≠ some '#')
    (h3 : ((lineText line).dropWhile isBlank).take 2 ≠ ['/', '/'])
    (hc : ',' ∈ lineText line)
    (ha : ∀ c ∈ ageField (lineText line), isAgeSkip c = true) :
    rowOutcome filter_age_max line = Outcome.ageMissing ∧
      step filter_age_max st line =
        { st with line_number := st.line_number + 1,
                  log := st.log ++ [Diag.ageMissing (st.line_number + 1) (cstr line)],
                  skipped := st.skipped + 1,
                  fault := st.fault ||
                    decide (processLine filter_age_max line = Outcome.outOfBounds) } := by
  have hp := rowOutcome_ageMissing filter_age_max line h2 h3 hc ha
  refine ⟨hp, ?_⟩
  rw [step_eq]
  unfold rowText lineDiag isKept
  rw [hp]
  simp

/-- Witness of `missing_age_line`: the line of scenario D, and the line `,` with an
empty name. -/
theorem missing_age_line_witness :
    step 18 RunState.init "Dan, \n".toList =
        { out := [], log := [Diag.ageMissing 1 "Dan, \n".toList], kept := 0, skipped := 1,
          line_number := 1, fault := false } ∧
      step 18 RunState.init ",\n".toList =
        { out := [], log := [Diag.ageMissing 1 ",\n".toList], kept := 0, skipped := 1,
          line_number := 1, fault := true } :=
  ⟨(missing_age_line 18 RunState.init "Dan, \n".toList (by decide) (by decide) (by decide)
      (by decide)).2,
   (missing_age_line 18 RunState.init ",\n".toList (by decide) (by decide) (by decide)
      (by decide)).2⟩

/-- Claim C14: empty and comment lines come first.  For every maximum age, a line
whose text is empty or made of spaces and tabs only is skipped as an empty
line, and a line whose first byte after the leading spaces and tabs is `#`, or
whose first two such bytes are `//`, is skipped as a comment, whatever follows
(also a well-formed record); in both cases `skipped` is incremented, the
message is logged and nothing is written to the output. -/
theorem empty_and_comment_first (filter_age_max : Nat) (st : RunState) (line : List Char) :
    ((∀ c ∈ lineText line, isBlank c = true) →
      processLine filter_age_max line = Outcome.emptyLine ∧
      step filter_age_max st line =
        { st with line_number := st.line_number + 1,
                  log := st.log ++ [Diag.emptyLine (st.line_number + 1)],
                  skipped := st.skipped + 1 }) ∧
    (((lineText line).dropWhile isBlank).head? = some '#' ∨
        ((lineText line).dropWhile isBlank).take 2 = ['/', '/'] →
      processLine filter_age_max line = Outcome.comment ∧
      step filter_age_max st line =
        { st with line_number := st.line_number + 1,
                  log := st.log ++ [Diag.comment (st.line_number + 1)],
                  skipped := st.skipped + 1 }) := by
  obtain ⟨h1, h2⟩ := processLine_body filter_age_max line
  refine ⟨?_, ?_⟩
  · intro h
    have hp := h1 (List.dropWhile_eq_nil_iff.2 h)
    refine ⟨hp, ?_⟩
    unfold step
    rw [hp]
  · intro h
    have hp := h2 h
    refine ⟨hp, ?_⟩
    unfold step
    rw [hp]

/-- Witness of `empty_and_comment_first`: a comment mark in front of a well-formed
record with an age below the maximum. -/
theorem empty_and_comment_first_witness :
    processLine 18 " # Bob,5\n".toList = Outcome.comment ∧
      step 18 RunState.init " # Bob,5\n".toList =
        { out := [], log := [Diag.comment 1], kept := 0, skipped := 1, line_number := 1,
          fault := false } :=
  (empty_and_comment_first 18 RunState.init " # Bob,5\n".toList).2 (Or.inl (by decide))

/-- Claim C15, amended: a line longer than the line buffer is split, not truncated.
For a line `l` of more than `LINE_MAX - 1 = 99` bytes, followed by its newline
and the rest of the input or ending the input, the lines the loop reads are
the pieces of 99 bytes of the line (the last piece holding what is left, with
the newline), then the lines of the rest; there are at least two pieces, the
first being the leading 99 bytes.  The lines read, one after the other, are
the whole input, so nothing is discarded, and every line read, so every
piece, is processed as a row: it has its own line number, its text is written
when it is accepted, and it is counted in `kept` or in `skipped`. -/
theorem long_line_split (filter_age_max : Nat) (l rest : List Char)
    (hl : '\n' ∉ l) (hlong : LINE_MAX - 1 < l.length) :
    readLines (l ++ '\n' :: rest) = pieces (l ++ ['\n']) ++ readLines rest ∧
    readLines l = pieces l ∧
    pieces (l ++ ['\n'])
      = l.take (LINE_MAX - 1) :: pieces (l.drop (LINE_MAX - 1) ++ ['\n']) ∧
    pieces l = l.take (LINE_MAX - 1) :: pieces (l.drop (LINE_MAX - 1)) ∧
    2 ≤ (pieces l).length ∧
    (∀ s : List Char, (pieces s).flatten = s ∧ (s = [] → pieces s = []) ∧
      (s ≠ [] → pieces s = s.take (LINE_MAX - 1) :: pieces (s.drop (LINE_MAX - 1)))) ∧
    (∀ inp : List Char,
      (readLines inp).flatten = inp ∧
        (filter_stream filter_age_max inp).out
          = ((readLines inp).map (rowText filter_age_max)).flatten ∧
        (filter_stream filter_age_max inp).kept
          = (readLines inp).countP (isKept filter_age_max) ∧
        (filter_stream filter_age_max inp).skipped
          = (readLines inp).countP (fun line => !isKept filter_age_max line) ∧
        (filter_stream filter_age_max inp).line_number = (readLines inp).length) := by
  have hs : l ≠ [] := by intro e; subst e; simp at hlong
  have h1 : (l ++ ['\n']).take (LINE_MAX - 1) = l.take (LINE_MAX - 1) := by
    rw [List.take_append_of_le_length (by omega)]
  have h2 : (l ++ ['\n']).drop (LINE_MAX - 1) = l.drop (LINE_MAX - 1) ++ ['\n'] := by
    rw [List.drop_append_of_le_length (by omega)]
  refine ⟨readLines_terminated l rest hl, readLines_unterminated l hl, ?_, pieces_cons l hs,
    pieces_long l hlong,
    fun s => ⟨pieces_flatten s, fun e => by rw [e]; rfl, pieces_cons s⟩, fun inp => ?_⟩
  · rw [pieces_cons (l ++ ['\n']) (by simp), h1, h2]
  · refine ⟨readLines_flatten inp, ?_⟩
    rw [filter_stream_closed]
    exact ⟨rfl, rfl, rfl, rfl⟩

set_option maxRecDepth 100000 in
/-- Witness of `long_line_split`: a line of 200 bytes is read as pieces of 99, 99 and 3
bytes, and without its newline as pieces of 99, 99 and 2 bytes. -/
theorem long_line_split_witness :
    readLines (List.replicate 200 'a' ++ '\n' :: "Bob,5\n".toList)
        = pieces (List.replicate 200 'a' ++ ['\n']) ++ readLines "Bob,5\n".toList ∧
      readLines (List.replicate 200 'a') = pieces (List.replicate 200 'a') ∧
      pieces (List.replicate 200 'a' ++ ['\n'])
        = [List.replicate 99 'a', List.replicate 99 'a', "aa\n".toList] ∧
      pieces (List.replicate 200 'a')
        = [List.replicate 99 'a', List.replicate 99 'a', "aa".toList] :=
  ⟨(long_line_split 18 (List.replicate 200 'a') "Bob,5\n".toList (by decide) (by decide)).1,
   (long_line_split 18 (List.replicate 200 'a') "Bob,5\n".toList (by decide) (by decide)).2.1,
   by decide, by decide⟩

set_option maxRecDepth 100000 in
/-- Claim C15 fails as stated: in a line of 99 bytes `a` followed by `Bob,5`, the
bytes beyond the capacity of the buffer are read as a second line and accepted
as a row: `Bob, 5` is written and `kept` is 1, while the first 99 bytes alone
write nothing. -/
theorem long_line_rest_is_a_row :
    (filter_stream 18 (List.replicate 99 'a' ++ "Bob,5\n".toList)).out = "Bob, 5\n".toList ∧
      (filter_stream 18 (List.replicate 99 'a' ++ "Bob,5\n".toList)).kept = 1 ∧
      (filter_stream 18 (List.replicate 99 'a' ++ "Bob,5\n".toList)).skipped = 1 ∧
      (filter_stream 18 (List.replicate 99 'a' ++ "Bob,5\n".toList)).line_number = 2 ∧
      (filter_stream 18 (List.replicate 99 'a')).out = [] ∧
      (filter_stream 18 (List.replicate 99 'a')).kept = 0 := by
  decide

/-- Claim C16: no state is carried from one row to the next.  For all inputs `x` and
`y` where `x` ends with a newline, and every maximum age, the lines read from
`x ++ y` are those of `x` then those of `y`, the output on `x ++ y` is the
output on `x` followed by the output on `y`, and `kept` and `skipped` are the
sums of those on `x` and on `y`; the output is, in the order of the lines
read, the row of every accepted line. -/
theorem concat_outputs (filter_age_max : Nat) (x y : List Char)
    (hx : x.getLast? = some '\n') :
    readLines (x ++ y) = readLines x ++ readLines y ∧
    (filter_stream filter_age_max (x ++ y)).out
      = (filter_stream filter_age_max x).out ++ (filter_stream filter_age_max y).out ∧
    (filter_stream filter_age_max (x ++ y)).kept
      = (filter_stream filter_age_max x).kept + (filter_stream filter_age_max y).kept ∧
    (filter_stream filter_age_max (x ++ y)).skipped
      = (filter_stream filter_age_max x).skipped + (filter_stream filter_age_max y).skipped ∧
    (filter_stream filter_age_max (x ++ y)).out
      = ((readLines (x ++ y)).map (rowText filter_age_max)).flatten := by
  have hr := readLines_append x y (Or.inr hx)
  refine ⟨hr, ?_, ?_, ?_, ?_⟩
  · rw [filter_stream_closed, filter_stream_closed, filter_stream_closed, hr]
    simp
  · rw [filter_stream_closed, filter_stream_closed, filter_stream_closed, hr]
    simp
  · rw [filter_stream_closed, filter_stream_closed, filter_stream_closed, hr]
    simp
  · rw [filter_stream_closed]

/-- Witness of `concat_outputs`: a row with an empty name, then a row with a name. -/
theorem concat_outputs_witness :
    (filter_stream 18 (",5\n".toList ++ "Bob,5\n".toList)).out
        = (filter_stream 18 ",5\n".toList).out ++ (filter_stream 18 "Bob,5\n".toList).out ∧
      (filter_stream 18 (",5\n".toList ++ "Bob,5\n".toList)).kept
        = (filter_stream 18 ",5\n".toList).kept + (filter_stream 18 "Bob,5\n".toList).kept ∧
      (filter_stream 18 (",5\n".toList ++ "Bob,5\n".toList)).out = ", 5\nBob, 5\n".toList :=
  ⟨(concat_outputs 18 ",5\n".toList "Bob,5\n".toList (by decide)).2.1,
   (concat_outputs 18 ",5\n".toList "Bob,5\n".toList (by decide)).2.2.1,
   by decide⟩

/-- Claim C17: line-ending invariance.  For every input whose lines have at most 97
bytes before the newline and every maximum age, replacing every `\n` by
`\r\n` leaves the text written to the output and the final `kept` and
`skipped` unchanged. -/
theorem line_ending_invariance (filter_age_max : Nat) (inp : List Char)
    (h : ∀ l ∈ rawLines inp, (l.filter (fun c => c != '\n')).length ≤ 97) :
    (filter_stream filter_age_max (crlf inp)).out = (filter_stream filter_age_max inp).out ∧
      (filter_stream filter_age_max (crlf inp)).kept
        = (filter_stream filter_age_max inp).kept ∧
      (filter_stream filter_age_max (crlf inp)).skipped
        = (filter_stream filter_age_max inp).skipped := by
  have hshape := rawLines_shape inp
  have r1 : readLines inp = rawLines inp :=
    readLines_eq_rawLines inp (fun l hl => (crlf_line_fits l (hshape l hl) (h l hl)).1)
  have r2 : readLines (crlf inp) = (rawLines inp).map crlf := by
    rw [readLines_eq_rawLines (crlf inp), rawLines_crlf]
    intro l hl
    rw [rawLines_crlf] at hl
    obtain ⟨l0, hl0, rfl⟩ := List.mem_map.1 hl
    exact (crlf_line_fits l0 (hshape l0 hl0) (h l0 hl0)).2
  obtain ⟨c1, c2, c3⟩ := lines_crlf filter_age_max (rawLines inp) hshape
  rw [filter_stream_closed, filter_stream_closed, r1, r2]
  exact ⟨c1, c2, c3⟩

/-- Witness of `line_ending_invariance`: lines ended by `\n`, by `\r\n` and by nothing,
one of them with an empty name. -/
theorem line_ending_invariance_witness :
    (filter_stream 18 (crlf "Alice, 17\n\n,5\nBob,19\r\nCid,5".toList)).out
        = (filter_stream 18 "Alice, 17\n\n,5\nBob,19\r\nCid,5".toList).out ∧
      (filter_stream 18 (crlf "Alice, 17\n\n,5\nBob,19\r\nCid,5".toList)).kept
        = (filter_stream 18 "Alice, 17\n\n,5\nBob,19\r\nCid,5".toList).kept ∧
      (filter_stream 18 (crlf "Alice, 17\n\n,5\nBob,19\r\nCid,5".toList)).skipped
        = (filter_stream 18 "Alice, 17\n\n,5\nBob,19\r\nCid,5".toList).skipped :=
  line_ending_invariance 18 "Alice, 17\n\n,5\nBob,19\r\nCid,5".toList (by decide)

/-- Claim C18, at the failing input: for the line `,5` the name field is empty
(`m = 0`) and starts at offset 0; the condition of the trim loop parses as
`(m && name[m - 1] == ' ') || name[m - 1] == '\t'`, so `name[m - 1]` is read
with `m = 0`, that is `parsebuffer[-1]`.  With one leading blank the byte read
is that blank, in front of the name: a tab is overwritten and the loop goes on
to `parsebuffer[-1]`, a space stops the loop.  The lines that reach
`parsebuffer[-1]` are those of `processLine_outOfBounds_iff`. -/
theorem trim_reads_before_name :
    processLine 18 ",5\n".toList = Outcome.outOfBounds ∧
      trimLoop 0 0 [NUL, '5'] = none ∧
      trimLoop 1 1 ['\t', NUL, '5'] = none ∧
      trimLoop 1 1 [' ', NUL, '5'] = some (1, [' ', NUL, '5']) ∧
      (filter_stream 18 ",5\n".toList).fault = true ∧
      (filter_stream 18 "\t,5\n".toList).fault = true := by
  decide

/-- Claim C19: for every input and every maximum age, each line written to the
output has exactly one comma: it is `name, age` with a name without comma and
an age made of decimal digits only; the name comes from the text in front of
the first comma of the input line, and the age is what `%u` reads at the start
of the age field, so nothing that follows it is written. -/
theorem written_line_one_comma (filter_age_max : Nat) (inp : List Char) :
    (∀ l ∈ rawLines (filter_stream filter_age_max inp).out,
      l.count ',' = 1 ∧
        ∃ name age, l = name ++ [',', ' '] ++ utoa age ++ ['\n'] ∧ ',' ∉ name ∧
          ∀ c ∈ utoa age, isdigit c = true) ∧
    (∀ (line name : List Char) (age : Nat),
      rowOutcome filter_age_max line = Outcome.kept name age →
        name = trimBlanks (nameField (lineText line)) ∧ ',' ∉ nameField (lineText line) ∧
          sscanf_u (ageText (lineText line)) = some age ∧
          rowText filter_age_max line = formatRow name age ∧
          (formatRow name age).count ',' = 1) := by
  constructor
  · obtain ⟨rows, h1, h2⟩ := filter_stream_rows filter_age_max inp
    intro l hl
    rw [h1, rawLines_rows rows (fun r hr => (h2 r hr).1.2.1)] at hl
    obtain ⟨r, hr, rfl⟩ := List.mem_map.1 hl
    obtain ⟨hg, _, _⟩ := h2 r hr
    refine ⟨?_, r.1, r.2, rfl, hg.1, (utoa_spec r.2).2.1⟩
    rw [count_formatRow r.1 r.2 ',' (by decide) hg.1]
    decide
  · intro line name age h
    obtain ⟨_, hn, hs, _, _, _⟩ := rowOutcome_kept filter_age_max line name age h
    obtain ⟨_, hc, _⟩ := name_of_rowKept filter_age_max line name age h
    refine ⟨hn, comma_not_mem_nameField _, hs, ?_, ?_⟩
    · unfold rowText
      rw [h]
    · rw [count_formatRow name age ',' (by decide) hc]
      decide

/-- Witness of `written_line_one_comma`: a row with further columns, behind a row with an
empty name and further columns. -/
theorem written_line_one_comma_witness :
    "Bob, 12\n".toList ∈ rawLines (filter_stream 18 ",5,z\nBob,12,x,y\n".toList).out ∧
      "Bob, 12\n".toList.count ',' = 1 :=
  ⟨by decide,
   ((written_line_one_comma 18 ",5,z\nBob,12,x,y\n".toList).1 "Bob, 12\n".toList
      (by decide)).1⟩

/-- Claim C20: for every input and every maximum age, the final `kept` is the
number of newlines in the text written, which is its number of lines, all
ended by a newline; it is the value reported by the summary, which is the last
message written; and a run that keeps no row writes nothing. -/
theorem kept_counts_written_lines (filter_age_max : Nat) (inp : List Char) :
    (filter_stream filter_age_max inp).kept
        = (filter_stream filter_age_max inp).out.count '\n' ∧
      (filter_stream filter_age_max inp).kept
        = (rawLines (filter_stream filter_age_max inp).out).length ∧
      (∀ l ∈ rawLines (filter_stream filter_age_max inp).out, l.getLast? = some '\n') ∧
      (filter_stream filter_age_max inp).log.getLast?
        = some (Diag.done (filter_stream filter_age_max inp).kept
            (filter_stream filter_age_max inp).skipped) ∧
      ((filter_stream filter_age_max inp).kept = 0 →
        (filter_stream filter_age_max inp).out = []) := by
  obtain ⟨rows, h1, h2, h3⟩ := filter_stream_rows_kept filter_age_max inp
  have hnl : ∀ r ∈ rows, '\n' ∉ r.1 := fun r hr => (h2 r hr).1.2.1
  refine ⟨?_, ?_, ?_, ?_, ?_⟩
  · rw [h3, h1, count_rows rows hnl]
  · rw [h3, h1, rawLines_rows rows hnl, List.length_map]
  · intro l hl
    rw [h1, rawLines_rows rows hnl] at hl
    obtain ⟨r, _, rfl⟩ := List.mem_map.1 hl
    rw [formatRow_eq, List.getLast?_concat]
  · rw [filter_stream_closed]
    simp
  · intro hk
    rw [h3] at hk
    have : rows = [] := List.length_eq_zero.1 hk
    rw [h1, this]
    rfl

end FilterCsv
